import Mathlib

/-!
Formal model of the vision-pos detection pipeline.

The development shallowly embeds the Python sources of the repository:

* `backend/app/services/ollama_service.py` — the Response Extractor
  (`OllamaService._parse_response`) and the `OllamaDetectionResult`
  constructor;
* `backend/app/services/inventory_service.py` — the Inventory Matcher
  (`InventoryService.match_product`), whose fuzzy tier calls
  `difflib.SequenceMatcher(None, a, b).ratio()`;
* `smolvlm/visionscan-pos/backend/app/routers/detect.py` — the Detection
  Orchestrator (`detect_from_image`), including its exception handlers;
* `smolvlm/visionscan-pos/backend/config.py` — the fuzzy threshold.

Conventions of the embedding:

* Python strings are lists of characters (`PyStr`).
* Python floats are modelled as rational numbers; the float literal 0.6 of
  the configuration is the rational 3/5.  Non-finite floats (inf, nan) are
  outside the domain of the model.
* Fallible Python code is modelled in `Except`; an exception class is a
  constructor of an error type, and a try/except block is a `match` on the
  result, with the subclass relations of the real Python class hierarchy
  spelled out explicitly.
* Database queries of the service layer are modelled over an in-memory list
  of rows in iteration order: `query.first()` is `List.find?`, SQL `=` on a
  text column is case-sensitive equality (the default collation of the
  configured PostgreSQL database), and `ILIKE` is the case-insensitive
  wildcard match, embedded by `lkMatch`.
* Loops with `break`/early return are structural recursions over the
  iterated list; `while` loops are recursions on an explicit bound (fuel)
  that is at least the number of iterations the Python loop performs.
-/

/-- Python strings, as lists of characters. -/
abbrev PyStr := List Char

/-- Python `str.lower()`, character by character. -/
def pyLower (s : PyStr) : PyStr := s.map Char.toLower

/-- The ASCII whitespace characters removed by Python `str.strip()`. -/
def isPySpace (c : Char) : Bool :=
  c == ' ' || c == '\t' || c == '\n' || c == '\r' || c == '\x0b' || c == '\x0c'

/-- Python `str.strip()`: remove leading and trailing whitespace. -/
def pyStrip (s : PyStr) : PyStr :=
  ((s.dropWhile isPySpace).reverse.dropWhile isPySpace).reverse

/-- Python `text.find(c)`: index of the first occurrence, `none` for -1. -/
def pyFind (s : PyStr) (c : Char) : Option ℕ := s.findIdx? (· == c)

/-- Python `text.rfind(c)`: index of the last occurrence, `none` for -1. -/
def pyRFind (s : PyStr) (c : Char) : Option ℕ :=
  match s.reverse.findIdx? (· == c) with
  | some i => some (s.length - 1 - i)
  | none => none

namespace Difflib

/-!
Embedding of `difflib.SequenceMatcher(None, a, b)` from the Python standard
library, as called by `InventoryService.match_product` (inventory_service.py
lines 123 and 133).  With `isjunk = None` the junk set `bjunk` is empty, so
the `isbjunk` tests of `find_longest_match` are constantly false and its two
junk-extension loops never run; they are omitted accordingly.  The autojunk
heuristic (Python `__chain_b`) is kept: when `len(b) >= 200`, characters
occurring more than `len(b) // 100 + 1` times are dropped from `b2j`.
-/

/-- The ascending list of positions of character `c` in `b` (the `b2j`
entries before the autojunk purge). -/
def posList (b : List Char) (c : Char) : List ℕ :=
  (List.range b.length).filter (fun j => b.getD j ' ' == c)

/-- The autojunk popularity test of `SequenceMatcher.__chain_b`. -/
def isPopular (b : List Char) (c : Char) : Bool :=
  decide (200 ≤ b.length) && decide (b.length / 100 + 1 < (posList b c).length)

/-- `b2j[c]`: positions of `c` in `b`, empty when `c` is autojunk-popular
(the dictionary lookup `b2j.get(a[i], nothing)` defaults to the empty
list). -/
def b2jFn (b : List Char) (c : Char) : List ℕ :=
  if isPopular b c then [] else posList b c

/-- State of `find_longest_match`: the best match found so far and the
`j2len` row being built (total function, 0 for absent keys, matching
`j2len.get(j-1, 0)`). -/
structure FlmState where
  besti : ℕ
  bestj : ℕ
  bestsize : ℕ
  row : ℕ → ℕ

/-- The chain length `k = j2len.get(j-1, 0) + 1` of the inner loop of
`find_longest_match`; the `j = 0` case is the Python lookup of the absent
key `-1`, which defaults to 0. -/
def chainK (oldRow : ℕ → ℕ) (j : ℕ) : ℕ :=
  (match j with | 0 => 0 | jj + 1 => oldRow jj) + 1

/-- One in-range iteration of the inner loop of `find_longest_match`:
`k = newj2len[j] = j2len.get(j-1, 0) + 1`, then a strict improvement test
on `bestsize`.  `oldRow` is the previous row `j2len`; `st.row` is the
`newj2len` under construction. -/
def innerStep (oldRow : ℕ → ℕ) (i j : ℕ) (st : FlmState) : FlmState :=
  let k := chainK oldRow j
  let st1 : FlmState := { st with row := fun x => if x = j then k else st.row x }
  if st1.bestsize < k then
    { st1 with besti := i + 1 - k, bestj := j + 1 - k, bestsize := k }
  else st1

/-- The inner loop `for j in b2j.get(a[i], nothing)` of
`find_longest_match`: `continue` below `blo`, `break` at `bhi`, otherwise
one `innerStep`. -/
def innerLoop (oldRow : ℕ → ℕ) (i blo bhi : ℕ) : List ℕ → FlmState → FlmState
  | [], st => st
  | j :: rest, st =>
      if j < blo then innerLoop oldRow i blo bhi rest st
      else if bhi ≤ j then st
      else innerLoop oldRow i blo bhi rest (innerStep oldRow i j st)

/-- The outer loop `for i in range(alo, ahi)` of `find_longest_match`:
`c` rows remain, the current row index is `i`, and each row starts a fresh
`newj2len` (`row := fun _ => 0`). -/
def rowsLoop (a b : List Char) (blo bhi : ℕ) : ℕ → ℕ → FlmState → FlmState
  | _, 0, st => st
  | i, c + 1, st =>
      rowsLoop a b blo bhi (i + 1) c
        (innerLoop st.row i blo bhi (b2jFn b (a.getD i ' ')) { st with row := fun _ => 0 })

/-- The dynamic-programming phase of `find_longest_match`, starting from
`besti, bestj, bestsize = alo, blo, 0` and an empty `j2len`. -/
def mainLoop (a b : List Char) (alo ahi blo bhi : ℕ) : FlmState :=
  rowsLoop a b blo bhi alo (ahi - alo) ⟨alo, blo, 0, fun _ => 0⟩

/-- The backward extension loop of `find_longest_match`
(`while besti > alo and bestj > blo and a[besti-1] == b[bestj-1]`);
with `isjunk = None` the `not isbjunk(...)` conjunct is constantly true.
Structural recursion on `besti`, which decreases by one per iteration. -/
def backExt (a b : List Char) (alo blo : ℕ) : ℕ → ℕ → ℕ → ℕ × ℕ × ℕ
  | 0, bj, bs => (0, bj, bs)
  | bi + 1, bj, bs =>
      if alo < bi + 1 ∧ blo < bj ∧ a.getD bi ' ' = b.getD (bj - 1) ' ' then
        backExt a b alo blo bi (bj - 1) (bs + 1)
      else (bi + 1, bj, bs)

/-- The forward extension loop of `find_longest_match`
(`while besti+bestsize < ahi and bestj+bestsize < bhi and
a[besti+bestsize] == b[bestj+bestsize]`).  The loop runs at most
`ahi - (bi + bs)` times, so any fuel of at least `ahi` is enough. -/
def fwdExt (a b : List Char) (ahi bhi bi bj : ℕ) : ℕ → ℕ → ℕ
  | 0, bs => bs
  | fuel + 1, bs =>
      if bi + bs < ahi ∧ bj + bs < bhi ∧ a.getD (bi + bs) ' ' = b.getD (bj + bs) ' ' then
        fwdExt a b ahi bhi bi bj fuel (bs + 1)
      else bs

/-- `find_longest_match(alo, ahi, blo, bhi)`: DP phase, then backward and
forward extension by non-junk equal elements (the two junk-extension loops
are no-ops since `bjunk` is empty). -/
def flm (a b : List Char) (alo ahi blo bhi : ℕ) : ℕ × ℕ × ℕ :=
  let st := mainLoop a b alo ahi blo bhi
  let r := backExt a b alo blo st.besti st.bestj st.bestsize
  (r.1, r.2.1, fwdExt a b ahi bhi r.1 r.2.1 ahi r.2.2)

/-- `get_matching_blocks`: the LIFO queue of ranges of the Python code is
modelled by structural recursion (the multiset of emitted blocks is the
same).  The final sort / merge of adjacent blocks and the terminal
`(la, lb, 0)` sentinel do not change the sum of block sizes, which is all
`ratio()` consumes, and are omitted.  `fuel` bounds the recursion depth; any
fuel of at least `(ahi - alo) + (bhi - blo)` is enough. -/
def blocksGo (a b : List Char) : ℕ → ℕ → ℕ → ℕ → ℕ → List (ℕ × ℕ × ℕ)
  | 0, _, _, _, _ => []
  | fuel + 1, alo, ahi, blo, bhi =>
      let m := flm a b alo ahi blo bhi
      if m.2.2 = 0 then []
      else
        (if alo < m.1 ∧ blo < m.2.1 then blocksGo a b fuel alo m.1 blo m.2.1 else []) ++
          [(m.1, m.2.1, m.2.2)] ++
          (if m.1 + m.2.2 < ahi ∧ m.2.1 + m.2.2 < bhi then
            blocksGo a b fuel (m.1 + m.2.2) ahi (m.2.1 + m.2.2) bhi
          else [])

/-- Total number of matching characters `M = sum(triple[-1] ...)`. -/
def blockSizeSum (L : List (ℕ × ℕ × ℕ)) : ℕ := (L.map (fun t => t.2.2)).sum

/-- `SequenceMatcher(None, a, b).ratio()`: `2*M / T` where `T` is the
combined length, and 1.0 when both strings are empty
(`difflib._calculate_ratio`).  The exact rational `2*M / T` is built with
`mkRat` (the reducible constructor) rather than field division; the two
agree by `ratioVal_eq_div`. -/
def ratioVal (a b : List Char) : ℚ :=
  let m := blockSizeSum (blocksGo a b (a.length + b.length + 1) 0 a.length 0 b.length)
  if a.length + b.length = 0 then 1
  else mkRat (2 * (m : ℤ)) (a.length + b.length)

end Difflib

namespace Difflib

/-- The block `(i, j, k)` is a genuine match: the `k` characters of `a`
starting at `i` equal the `k` characters of `b` starting at `j`. -/
def matchAt (a b : List Char) (i j k : ℕ) : Prop :=
  ∀ t, t < k → a.getD (i + t) ' ' = b.getD (j + t) ' '

/-- Invariant of the best match of `find_longest_match`: in range on both
sides (`rbnd` bounds the `a` side, growing with the processed rows) and a
genuine match. -/
def GoodBest (a b : List Char) (alo blo rbnd bhi bi bj bs : ℕ) : Prop :=
  alo ≤ bi ∧ blo ≤ bj ∧ bi + bs ≤ rbnd ∧ bj + bs ≤ bhi ∧ matchAt a b bi bj bs

/-- Invariant of a `j2len` row whose chains end at row `i - 1`: every
nonzero entry is an in-range genuine diagonal chain. -/
def GoodRow (a b : List Char) (alo blo bhi i : ℕ) (r : ℕ → ℕ) : Prop :=
  ∀ x, r x ≠ 0 →
    blo ≤ x ∧ x < bhi ∧ r x ≤ x + 1 - blo ∧ r x ≤ i - alo ∧
      matchAt a b (i - r x) (x + 1 - r x) (r x)

lemma matchAt_zero (a b : List Char) (i j : ℕ) : matchAt a b i j 0 := by
  intro t ht; omega

lemma chainK_zero (oldRow : ℕ → ℕ) : chainK oldRow 0 = 1 := rfl

lemma chainK_succ (oldRow : ℕ → ℕ) (jj : ℕ) : chainK oldRow (jj + 1) = oldRow jj + 1 := rfl

lemma mem_posList {b : List Char} {c : Char} {j : ℕ} :
    j ∈ posList b c ↔ j < b.length ∧ b.getD j ' ' = c := by
  simp [posList, List.mem_filter, List.mem_range]

lemma mem_b2jFn {b : List Char} {c : Char} {j : ℕ} (h : j ∈ b2jFn b c) :
    j < b.length ∧ b.getD j ' ' = c := by
  unfold b2jFn at h
  split at h
  · simp at h
  · exact mem_posList.mp h

lemma mem_b2jFn_of {b : List Char} {c : Char} {j x : ℕ} (h : j ∈ b2jFn b c)
    (hx : x < b.length) (hcx : b.getD x ' ' = c) : x ∈ b2jFn b c := by
  unfold b2jFn at h ⊢
  split at h
  · simp at h
  · next hpop => simp only [if_neg hpop]; exact mem_posList.mpr ⟨hx, hcx⟩

lemma b2jFn_pairwise (b : List Char) (c : Char) :
    (b2jFn b c).Pairwise (· < ·) := by
  unfold b2jFn
  split
  · exact List.Pairwise.nil
  · exact List.Pairwise.sublist (List.filter_sublist _) (List.pairwise_lt_range _)

lemma goodBest_mono {a b : List Char} {alo blo r1 r2 bhi bi bj bs : ℕ}
    (h : GoodBest a b alo blo r1 bhi bi bj bs) (hr : r1 ≤ r2) :
    GoodBest a b alo blo r2 bhi bi bj bs := by
  obtain ⟨h1, h2, h3, h4, h5⟩ := h
  exact ⟨h1, h2, by omega, h4, h5⟩

/-- The chain length computed by `innerStep`, with its certification: in
range and a genuine match ending at `(i, j)`. -/
lemma chain_cert {a b : List Char} {alo blo bhi i : ℕ} {oldRow : ℕ → ℕ}
    (hold : GoodRow a b alo blo bhi i oldRow) (hi : alo ≤ i)
    {j : ℕ} (hjlo : blo ≤ j) (hjb : b.getD j ' ' = a.getD i ' ') :
    chainK oldRow j ≤ j + 1 - blo ∧ chainK oldRow j ≤ i + 1 - alo ∧
      matchAt a b (i + 1 - chainK oldRow j) (j + 1 - chainK oldRow j)
        (chainK oldRow j) := by
  rcases j with _ | jj
  · rw [chainK_zero]
    refine ⟨by omega, by omega, ?_⟩
    intro t ht
    have ht2 : t = 0 := by omega
    subst ht2
    have e1 : i + 1 - 1 + 0 = i := by omega
    have e2 : 0 + 1 - 1 + 0 = 0 := by omega
    rw [e1, e2]
    exact hjb.symm
  · rw [chainK_succ]
    by_cases hz : oldRow jj = 0
    · rw [hz]
      refine ⟨by omega, by omega, ?_⟩
      intro t ht
      have ht2 : t = 0 := by omega
      subst ht2
      have e1 : i + 1 - (0 + 1) + 0 = i := by omega
      have e2 : jj + 1 + 1 - (0 + 1) + 0 = jj + 1 := by omega
      rw [e1, e2]
      exact hjb.symm
    · obtain ⟨h1, h2, h3, h4, h5⟩ := hold jj hz
      refine ⟨by omega, by omega, ?_⟩
      intro t ht
      rcases Nat.lt_or_ge t (oldRow jj) with hlt | hge
      · have := h5 t hlt
        have e1 : i + 1 - (oldRow jj + 1) + t = i - oldRow jj + t := by omega
        have e2 : jj + 1 + 1 - (oldRow jj + 1) + t = jj + 1 - oldRow jj + t := by omega
        rw [e1, e2]
        exact this
      · have ht2 : t = oldRow jj := by omega
        subst ht2
        have e1 : i + 1 - (oldRow jj + 1) + oldRow jj = i := by omega
        have e2 : jj + 1 + 1 - (oldRow jj + 1) + oldRow jj = jj + 1 := by omega
        rw [e1, e2]
        exact hjb.symm

/-- `innerStep` when the improvement test fires. -/
lemma innerStep_pos (oldRow : ℕ → ℕ) (i j : ℕ) (st : FlmState)
    (h : st.bestsize < chainK oldRow j) :
    innerStep oldRow i j st =
      ⟨i + 1 - chainK oldRow j, j + 1 - chainK oldRow j, chainK oldRow j,
        fun x => if x = j then chainK oldRow j else st.row x⟩ := by
  unfold innerStep
  exact if_pos h

/-- `innerStep` when the improvement test does not fire. -/
lemma innerStep_neg (oldRow : ℕ → ℕ) (i j : ℕ) (st : FlmState)
    (h : ¬ st.bestsize < chainK oldRow j) :
    innerStep oldRow i j st =
      { st with row := fun x => if x = j then chainK oldRow j else st.row x } := by
  unfold innerStep
  exact if_neg h

/-- Setting one in-range certified entry of a row preserves the row
invariant. -/
lemma goodRow_update {a b : List Char} {alo blo bhi i : ℕ} {r : ℕ → ℕ}
    (hr : GoodRow a b alo blo bhi i r) {j k : ℕ}
    (hjlo : blo ≤ j) (hjhi : j < bhi) (hk1 : k ≤ j + 1 - blo)
    (hk2 : k ≤ i - alo) (hm : matchAt a b (i - k) (j + 1 - k) k) :
    GoodRow a b alo blo bhi i (fun x => if x = j then k else r x) := by
  intro x hx
  have hx2 : (if x = j then k else r x) ≠ 0 := hx
  show blo ≤ x ∧ x < bhi ∧ (if x = j then k else r x) ≤ x + 1 - blo ∧
      (if x = j then k else r x) ≤ i - alo ∧
      matchAt a b (i - (if x = j then k else r x))
        (x + 1 - (if x = j then k else r x)) (if x = j then k else r x)
  by_cases hxj : x = j
  · rw [if_pos hxj] at hx2 ⊢
    subst hxj
    exact ⟨hjlo, hjhi, hk1, hk2, hm⟩
  · rw [if_neg hxj] at hx2 ⊢
    exact hr x hx2

/-- `innerStep` preserves the best-match and row invariants. -/
lemma innerStep_A {a b : List Char} {alo blo bhi i : ℕ} {oldRow : ℕ → ℕ}
    (hold : GoodRow a b alo blo bhi i oldRow) (hi : alo ≤ i)
    {j : ℕ} (hjlo : blo ≤ j) (hjhi : j < bhi)
    (hjb : b.getD j ' ' = a.getD i ' ') (st : FlmState)
    (hb : GoodBest a b alo blo (i + 1) bhi st.besti st.bestj st.bestsize)
    (hr : GoodRow a b alo blo bhi (i + 1) st.row) :
    GoodBest a b alo blo (i + 1) bhi (innerStep oldRow i j st).besti
        (innerStep oldRow i j st).bestj (innerStep oldRow i j st).bestsize ∧
      GoodRow a b alo blo bhi (i + 1) (innerStep oldRow i j st).row := by
  obtain ⟨hc1, hc2, hc3⟩ := chain_cert hold hi hjlo hjb
  have hrow1 : GoodRow a b alo blo bhi (i + 1)
      (fun x => if x = j then chainK oldRow j else st.row x) :=
    goodRow_update hr hjlo hjhi hc1 (by omega) hc3
  by_cases hupd : st.bestsize < chainK oldRow j
  · rw [innerStep_pos oldRow i j st hupd]
    refine ⟨⟨?_, ?_, ?_, ?_, ?_⟩, hrow1⟩
    · show alo ≤ i + 1 - chainK oldRow j
      omega
    · show blo ≤ j + 1 - chainK oldRow j
      omega
    · show i + 1 - chainK oldRow j + chainK oldRow j ≤ i + 1
      omega
    · show j + 1 - chainK oldRow j + chainK oldRow j ≤ bhi
      omega
    · exact hc3
  · rw [innerStep_neg oldRow i j st hupd]
    exact ⟨hb, hrow1⟩

/-- The inner loop preserves the best-match and row invariants. -/
lemma innerLoop_A {a b : List Char} {alo blo bhi i : ℕ} {oldRow : ℕ → ℕ}
    (hold : GoodRow a b alo blo bhi i oldRow) (hi : alo ≤ i) :
    ∀ (L : List ℕ) (st : FlmState),
      (∀ j ∈ L, j < b.length ∧ b.getD j ' ' = a.getD i ' ') →
      GoodBest a b alo blo (i + 1) bhi st.besti st.bestj st.bestsize →
      GoodRow a b alo blo bhi (i + 1) st.row →
      GoodBest a b alo blo (i + 1) bhi (innerLoop oldRow i blo bhi L st).besti
          (innerLoop oldRow i blo bhi L st).bestj
          (innerLoop oldRow i blo bhi L st).bestsize ∧
        GoodRow a b alo blo bhi (i + 1) (innerLoop oldRow i blo bhi L st).row := by
  intro L
  induction L with
  | nil => intro st _ hb hr; exact ⟨hb, hr⟩
  | cons j rest ih =>
    intro st hL hb hr
    have hrest : ∀ x ∈ rest, x < b.length ∧ b.getD x ' ' = a.getD i ' ' :=
      fun x hx => hL x (List.mem_cons_of_mem _ hx)
    rw [innerLoop]
    by_cases hjlo : j < blo
    · rw [if_pos hjlo]
      exact ih st hrest hb hr
    rw [if_neg hjlo]
    by_cases hjhi : bhi ≤ j
    · rw [if_pos hjhi]
      exact ⟨hb, hr⟩
    rw [if_neg hjhi]
    obtain ⟨hstep1, hstep2⟩ :=
      innerStep_A hold hi (by omega) (by omega)
        (hL j (List.mem_cons_self _ _)).2 st hb hr
    exact ih _ hrest hstep1 hstep2

/-- The row loop preserves the invariants, growing the `a`-side bound by
one per processed row. -/
lemma rowsLoop_A {a b : List Char} {alo blo bhi : ℕ} :
    ∀ (c i : ℕ) (st : FlmState), alo ≤ i →
      GoodBest a b alo blo i bhi st.besti st.bestj st.bestsize →
      GoodRow a b alo blo bhi i st.row →
      GoodBest a b alo blo (i + c) bhi (rowsLoop a b blo bhi i c st).besti
        (rowsLoop a b blo bhi i c st).bestj
        (rowsLoop a b blo bhi i c st).bestsize := by
  intro c
  induction c with
  | zero => intro i st hi hb hr; exact hb
  | succ c ih =>
    intro i st hi hb hr
    rw [rowsLoop]
    have harg : ∀ j ∈ b2jFn b (a.getD i ' '), j < b.length ∧ b.getD j ' ' = a.getD i ' ' :=
      fun j hj => mem_b2jFn hj
    have hb1 : GoodBest a b alo blo (i + 1) bhi st.besti st.bestj st.bestsize :=
      goodBest_mono hb (by omega)
    have hr0 : GoodRow a b alo blo bhi (i + 1) (fun _ => 0) := by
      intro x hx; simp at hx
    obtain ⟨h1, h2⟩ :=
      innerLoop_A hr hi (b2jFn b (a.getD i ' ')) { st with row := fun _ => 0 } harg hb1 hr0
    have hfin := ih (i + 1) _ (by omega) h1 h2
    have e : i + 1 + c = i + (c + 1) := by omega
    rw [e] at hfin
    exact hfin

/-- The DP phase of `find_longest_match` produces an in-range genuine
match. -/
lemma mainLoop_A {a b : List Char} {alo ahi blo bhi : ℕ}
    (hao : alo ≤ ahi) (hbo : blo ≤ bhi) :
    GoodBest a b alo blo ahi bhi (mainLoop a b alo ahi blo bhi).besti
      (mainLoop a b alo ahi blo bhi).bestj
      (mainLoop a b alo ahi blo bhi).bestsize := by
  have hinit : GoodBest a b alo blo alo bhi alo blo 0 :=
    ⟨le_rfl, le_rfl, by omega, by omega, matchAt_zero a b alo blo⟩
  have hr0 : GoodRow a b alo blo bhi alo (fun _ => 0) := by
    intro x hx; simp at hx
  have h := rowsLoop_A (ahi - alo) alo ⟨alo, blo, 0, fun _ => 0⟩ le_rfl hinit hr0
  have e : alo + (ahi - alo) = ahi := by omega
  rw [e] at h
  exact h

/-- The backward extension preserves the best-match invariant. -/
lemma backExt_A {a b : List Char} {alo blo rbnd bhi : ℕ} :
    ∀ (bi bj bs : ℕ), GoodBest a b alo blo rbnd bhi bi bj bs →
      GoodBest a b alo blo rbnd bhi (backExt a b alo blo bi bj bs).1
        (backExt a b alo blo bi bj bs).2.1 (backExt a b alo blo bi bj bs).2.2 := by
  intro bi
  induction bi with
  | zero => intro bj bs hb; rw [backExt]; exact hb
  | succ bi ih =>
    intro bj bs hb
    rw [backExt]
    by_cases hc : alo < bi + 1 ∧ blo < bj ∧ a.getD bi ' ' = b.getD (bj - 1) ' '
    · rw [if_pos hc]
      apply ih
      obtain ⟨h1, h2, h3, h4, h5⟩ := hb
      refine ⟨by omega, by omega, by omega, by omega, ?_⟩
      intro t ht
      rcases Nat.eq_zero_or_pos t with ht0 | htp
      · subst ht0
        have e1 : bi + 0 = bi := by omega
        have e2 : bj - 1 + 0 = bj - 1 := by omega
        rw [e1, e2]
        exact hc.2.2
      · have hm := h5 (t - 1) (by omega)
        have e1 : bi + t = bi + 1 + (t - 1) := by omega
        have e2 : bj - 1 + t = bj + (t - 1) := by omega
        rw [e1, e2]
        exact hm
    · rw [if_neg hc]
      exact hb

/-- The forward extension preserves the best-match invariant. -/
lemma fwdExt_A {a b : List Char} {alo blo ahi bhi bi bj : ℕ} :
    ∀ (fuel bs : ℕ), GoodBest a b alo blo ahi bhi bi bj bs →
      GoodBest a b alo blo ahi bhi bi bj (fwdExt a b ahi bhi bi bj fuel bs) := by
  intro fuel
  induction fuel with
  | zero => intro bs hb; rw [fwdExt]; exact hb
  | succ fuel ih =>
    intro bs hb
    rw [fwdExt]
    by_cases hc : bi + bs < ahi ∧ bj + bs < bhi ∧ a.getD (bi + bs) ' ' = b.getD (bj + bs) ' '
    · rw [if_pos hc]
      apply ih
      obtain ⟨h1, h2, h3, h4, h5⟩ := hb
      refine ⟨h1, h2, by omega, by omega, ?_⟩
      intro t ht
      rcases Nat.lt_or_ge t bs with h | h
      · exact h5 t h
      · have ht2 : t = bs := by omega
        subst ht2
        exact hc.2.2
    · rw [if_neg hc]
      exact hb

/-- `find_longest_match` returns an in-range genuine match. -/
lemma flm_A {a b : List Char} {alo ahi blo bhi : ℕ}
    (hao : alo ≤ ahi) (hbo : blo ≤ bhi) :
    GoodBest a b alo blo ahi bhi (flm a b alo ahi blo bhi).1
      (flm a b alo ahi blo bhi).2.1 (flm a b alo ahi blo bhi).2.2 := by
  have h1 := mainLoop_A (a := a) (b := b) hao hbo
  have h2 := backExt_A _ _ _ h1
  exact fwdExt_A _ _ h2

lemma blockSizeSum_nil : blockSizeSum [] = 0 := rfl

lemma blockSizeSum_append (L1 L2 : List (ℕ × ℕ × ℕ)) :
    blockSizeSum (L1 ++ L2) = blockSizeSum L1 + blockSizeSum L2 := by
  simp [blockSizeSum]

lemma blockSizeSum_single (i j k : ℕ) : blockSizeSum [(i, j, k)] = k := by
  simp [blockSizeSum]

/-- The matching blocks lie in disjoint monotone ranges, so the number of
matched characters is at most the length of either side of the range. -/
lemma blocksGo_sum_le {a b : List Char} :
    ∀ (fuel alo ahi blo bhi : ℕ), alo ≤ ahi → blo ≤ bhi →
      blockSizeSum (blocksGo a b fuel alo ahi blo bhi) ≤ ahi - alo ∧
        blockSizeSum (blocksGo a b fuel alo ahi blo bhi) ≤ bhi - blo := by
  intro fuel
  induction fuel with
  | zero =>
    intro alo ahi blo bhi hao hbo
    rw [blocksGo, blockSizeSum_nil]
    omega
  | succ fuel ih =>
    intro alo ahi blo bhi hao hbo
    rw [blocksGo]
    set m := flm a b alo ahi blo bhi with hm
    by_cases hk : m.2.2 = 0
    · rw [if_pos hk, blockSizeSum_nil]
      omega
    · rw [if_neg hk]
      obtain ⟨hb1, hb2, hb3, hb4, _⟩ := flm_A (a := a) (b := b) hao hbo
      rw [← hm] at hb1 hb2 hb3 hb4
      have hL1 : blockSizeSum
          (if alo < m.1 ∧ blo < m.2.1 then blocksGo a b fuel alo m.1 blo m.2.1 else []) ≤
            m.1 - alo ∧
          blockSizeSum
          (if alo < m.1 ∧ blo < m.2.1 then blocksGo a b fuel alo m.1 blo m.2.1 else []) ≤
            m.2.1 - blo := by
        split
        · exact ih alo m.1 blo m.2.1 hb1 hb2
        · rw [blockSizeSum_nil]; omega
      have hL2 : blockSizeSum
          (if m.1 + m.2.2 < ahi ∧ m.2.1 + m.2.2 < bhi then
            blocksGo a b fuel (m.1 + m.2.2) ahi (m.2.1 + m.2.2) bhi else []) ≤
            ahi - (m.1 + m.2.2) ∧
          blockSizeSum
          (if m.1 + m.2.2 < ahi ∧ m.2.1 + m.2.2 < bhi then
            blocksGo a b fuel (m.1 + m.2.2) ahi (m.2.1 + m.2.2) bhi else []) ≤
            bhi - (m.2.1 + m.2.2) := by
        split
        · exact ih (m.1 + m.2.2) ahi (m.2.1 + m.2.2) bhi (by omega) (by omega)
        · rw [blockSizeSum_nil]; omega
      rw [blockSizeSum_append, blockSizeSum_append, blockSizeSum_single]
      omega

/-- When the matched-character count saturates both range lengths, the two
ranges hold identical text. -/
lemma blocksGo_full_eq {a b : List Char} :
    ∀ (fuel alo ahi blo bhi : ℕ), alo ≤ ahi → blo ≤ bhi →
      blockSizeSum (blocksGo a b fuel alo ahi blo bhi) = ahi - alo →
      blockSizeSum (blocksGo a b fuel alo ahi blo bhi) = bhi - blo →
      ∀ t, alo + t < ahi → a.getD (alo + t) ' ' = b.getD (blo + t) ' ' := by
  intro fuel
  induction fuel with
  | zero =>
    intro alo ahi blo bhi hao hbo h1 h2 t ht
    rw [blocksGo, blockSizeSum_nil] at h1
    omega
  | succ fuel ih =>
    intro alo ahi blo bhi hao hbo h1 h2 t ht
    rw [blocksGo] at h1 h2
    set m := flm a b alo ahi blo bhi with hm
    by_cases hk : m.2.2 = 0
    · rw [if_pos hk, blockSizeSum_nil] at h1
      omega
    · rw [if_neg hk] at h1 h2
      obtain ⟨hb1, hb2, hb3, hb4, hmt⟩ := flm_A (a := a) (b := b) hao hbo
      rw [← hm] at hb1 hb2 hb3 hb4 hmt
      rw [blockSizeSum_append, blockSizeSum_append, blockSizeSum_single] at h1 h2
      have hL1 : blockSizeSum
          (if alo < m.1 ∧ blo < m.2.1 then blocksGo a b fuel alo m.1 blo m.2.1 else []) ≤
            m.1 - alo ∧
          blockSizeSum
          (if alo < m.1 ∧ blo < m.2.1 then blocksGo a b fuel alo m.1 blo m.2.1 else []) ≤
            m.2.1 - blo := by
        split
        · exact blocksGo_sum_le fuel alo m.1 blo m.2.1 hb1 hb2
        · rw [blockSizeSum_nil]; omega
      have hL2 : blockSizeSum
          (if m.1 + m.2.2 < ahi ∧ m.2.1 + m.2.2 < bhi then
            blocksGo a b fuel (m.1 + m.2.2) ahi (m.2.1 + m.2.2) bhi else []) ≤
            ahi - (m.1 + m.2.2) ∧
          blockSizeSum
          (if m.1 + m.2.2 < ahi ∧ m.2.1 + m.2.2 < bhi then
            blocksGo a b fuel (m.1 + m.2.2) ahi (m.2.1 + m.2.2) bhi else []) ≤
            bhi - (m.2.1 + m.2.2) := by
        split
        · exact blocksGo_sum_le fuel (m.1 + m.2.2) ahi (m.2.1 + m.2.2) bhi (by omega) (by omega)
        · rw [blockSizeSum_nil]; omega
      -- the equalities force every part to saturate its range
      rcases Nat.lt_or_ge t (m.1 - alo) with hreg1 | hreg1
      · -- left segment: the left recursion must have run and saturated
        by_cases hg1 : alo < m.1 ∧ blo < m.2.1
        · rw [if_pos hg1] at h1 h2 hL1
          have := ih alo m.1 blo m.2.1 hb1 hb2 (by omega) (by omega) t (by omega)
          exact this
        · rw [if_neg hg1, blockSizeSum_nil] at h1 h2
          omega
      rcases Nat.lt_or_ge t (m.1 - alo + m.2.2) with hreg2 | hreg2
      · -- middle segment: covered by the returned match itself
        have hu := hmt (t - (m.1 - alo)) (by omega)
        have e1 : m.1 + (t - (m.1 - alo)) = alo + t := by omega
        have e2 : m.2.1 + (t - (m.1 - alo)) = blo + t := by omega
        rw [e1, e2] at hu
        exact hu
      · -- right segment: the right recursion must have run and saturated
        by_cases hg2 : m.1 + m.2.2 < ahi ∧ m.2.1 + m.2.2 < bhi
        · rw [if_pos hg2] at h1 h2 hL2
          have := ih (m.1 + m.2.2) ahi (m.2.1 + m.2.2) bhi (by omega) (by omega)
            (by omega) (by omega) (t - (m.1 - alo + m.2.2)) (by omega)
          have e1 : m.1 + m.2.2 + (t - (m.1 - alo + m.2.2)) = alo + t := by omega
          have e2 : m.2.1 + m.2.2 + (t - (m.1 - alo + m.2.2)) = blo + t := by omega
          rw [e1, e2] at this
          exact this
        · rw [if_neg hg2, blockSizeSum_nil] at h1 h2
          omega

lemma list_eq_of_getD {a b : List Char} (hlen : a.length = b.length)
    (h : ∀ t, t < a.length → a.getD t ' ' = b.getD t ' ') : a = b := by
  apply List.ext_getElem hlen
  intro n h1 h2
  have := h n h1
  rwa [List.getD_eq_getElem a ' ' h1, List.getD_eq_getElem b ' ' h2] at this

/-- A ratio of exactly 1 is attained only by identical strings. -/
lemma ratioVal_eq_one {a b : List Char} (h : ratioVal a b = 1) : a = b := by
  unfold ratioVal at h
  by_cases h0 : a.length + b.length = 0
  · have ha : a = [] := List.length_eq_zero.mp (by omega)
    have hb : b = [] := List.length_eq_zero.mp (by omega)
    rw [ha, hb]
  · rw [if_neg h0] at h
    set M := blockSizeSum (blocksGo a b (a.length + b.length + 1) 0 a.length 0 b.length)
      with hMdef
    rw [Rat.mkRat_eq_div] at h
    have hden : (((a.length + b.length : ℕ)) : ℚ) ≠ 0 := by
      rw [Nat.cast_ne_zero]
      omega
    have h2M : ((2 * (M : ℤ) : ℤ) : ℚ) = ((a.length + b.length : ℕ) : ℚ) := by
      rw [div_eq_one_iff_eq hden] at h
      exact h
    have h2M' : 2 * M = a.length + b.length := by
      have h3 : ((2 * M : ℕ) : ℚ) = (((a.length + b.length : ℕ)) : ℚ) := by
        push_cast at h2M ⊢
        linarith
      exact Nat.cast_injective h3
    obtain ⟨hle1, hle2⟩ :=
      blocksGo_sum_le (a := a) (b := b) (a.length + b.length + 1) 0 a.length 0 b.length
        (by omega) (by omega)
    rw [← hMdef] at hle1 hle2
    have hM : M = a.length ∧ M = b.length := by omega
    have heq :=
      blocksGo_full_eq (a := a) (b := b) (a.length + b.length + 1) 0 a.length 0 b.length
        (by omega) (by omega) (by omega) (by omega)
    refine list_eq_of_getD (by omega) ?_
    intro t ht
    have := heq t (by omega)
    simpa using this

/-- The mathematical value of a `j2len` chain ending at cell `(i, j)` over
the full range: consecutive `b2j` hits along the diagonal through
`(i, j)`. -/
def chainVal (a b : List Char) : ℕ → ℕ → ℕ
  | 0, j => if j ∈ b2jFn b (a.getD 0 ' ') then 1 else 0
  | i + 1, 0 => if 0 ∈ b2jFn b (a.getD (i + 1) ' ') then 1 else 0
  | i + 1, j + 1 =>
      if (j + 1) ∈ b2jFn b (a.getD (i + 1) ' ') then chainVal a b i j + 1 else 0

/-- The previous `j2len` row seen when processing row `i`: empty before the
first row, else the chains ending at row `i - 1`. -/
def prevChain (a b : List Char) : ℕ → ℕ → ℕ
  | 0 => fun _ => 0
  | i + 1 => chainVal a b i

lemma chainVal_of_not_mem {a b : List Char} {i j : ℕ}
    (h : j ∉ b2jFn b (a.getD i ' ')) : chainVal a b i j = 0 := by
  match i, j with
  | 0, j => rw [chainVal, if_neg h]
  | i + 1, 0 => rw [chainVal, if_neg h]
  | i + 1, j + 1 => rw [chainVal, if_neg h]

/-- The inner-loop value `k` is exactly the mathematical chain value when
the previous row is correct and the cell is a `b2j` hit. -/
lemma chainK_eq_chainVal {a : List Char} {i : ℕ} {oldRow : ℕ → ℕ}
    (holdEq : ∀ x, oldRow x = prevChain a a i x) {j : ℕ}
    (hmem : j ∈ b2jFn a (a.getD i ' ')) :
    chainK oldRow j = chainVal a a i j := by
  match i, j with
  | 0, 0 => rw [chainK_zero, chainVal, if_pos hmem]
  | 0, jj + 1 =>
    rw [chainK_succ, holdEq jj, chainVal, if_pos hmem]
    rfl
  | i' + 1, 0 => rw [chainK_zero, chainVal, if_pos hmem]
  | i' + 1, jj + 1 =>
    rw [chainK_succ, holdEq jj, chainVal, if_pos hmem]
    rfl

/-- Transport of chains to the diagonal, for `a` matched against itself:
any chain ending at `(i, j)` gives a diagonal chain at least as long ending
at `(min i j, min i j)`. -/
lemma chainVal_transport (a : List Char) :
    ∀ i j, chainVal a a i j ≤ chainVal a a (min i j) (min i j) := by
  intro i
  induction i with
  | zero =>
    intro j
    rw [Nat.zero_min]
    by_cases hmem : j ∈ b2jFn a (a.getD 0 ' ')
    · have h0 : (0 : ℕ) ∈ b2jFn a (a.getD 0 ' ') := by
        have hlen := (mem_b2jFn hmem).1
        exact mem_b2jFn_of hmem (by omega) rfl
      rw [chainVal, if_pos hmem]
      rw [chainVal, if_pos h0]
    · rw [chainVal, if_neg hmem]
      omega
  | succ i' ih =>
    intro j
    match j with
    | 0 =>
      rw [Nat.min_zero]
      by_cases hmem : (0 : ℕ) ∈ b2jFn a (a.getD (i' + 1) ' ')
      · have hchar : a.getD 0 ' ' = a.getD (i' + 1) ' ' := (mem_b2jFn hmem).2
        have h0 : (0 : ℕ) ∈ b2jFn a (a.getD 0 ' ') := by
          rw [hchar]
          exact hmem
        rw [show chainVal a a (i' + 1) 0 = 1 from by rw [chainVal, if_pos hmem]]
        rw [show chainVal a a 0 0 = 1 from by rw [chainVal, if_pos h0]]
      · rw [show chainVal a a (i' + 1) 0 = 0 from by rw [chainVal, if_neg hmem]]
        omega
    | jj + 1 =>
      by_cases hmem : (jj + 1) ∈ b2jFn a (a.getD (i' + 1) ' ')
      · have hjlen : jj + 1 < a.length := (mem_b2jFn hmem).1
        have hchar : a.getD (jj + 1) ' ' = a.getD (i' + 1) ' ' := (mem_b2jFn hmem).2
        have hmlen : min i' jj + 1 < a.length := by
          have : min i' jj ≤ jj := Nat.min_le_right _ _
          omega
        have hcharm : a.getD (min i' jj + 1) ' ' = a.getD (i' + 1) ' ' := by
          rcases Nat.le_total i' jj with hle | hle
          · rw [Nat.min_eq_left hle]
          · rw [Nat.min_eq_right hle]
            exact hchar
        have hmemm : (min i' jj + 1) ∈ b2jFn a (a.getD (min i' jj + 1) ' ') := by
          rw [hcharm]
          exact mem_b2jFn_of hmem hmlen hcharm
        rw [Nat.succ_min_succ]
        rw [chainVal, if_pos hmem]
        rw [chainVal, if_pos hmemm]
        have := ih jj
        omega
      · rw [chainVal, if_neg hmem]
        omega

/-- Diagonal invariant of the inner loop when `a` is matched against
itself over the full range: the best match stays on the diagonal, its size
dominates every chain of the processed cells, and the new row records the
chain values of row `i`. -/
lemma innerLoop_diag {a : List Char} {i : ℕ} {oldRow : ℕ → ℕ}
    (holdEq : ∀ x, oldRow x = prevChain a a i x) :
    ∀ (L : List ℕ) (st : FlmState),
      L.Pairwise (· < ·) →
      (∀ x ∈ L, x ∈ b2jFn a (a.getD i ' ')) →
      st.besti = st.bestj →
      (∀ x, x ∉ L → chainVal a a i x ≤ st.bestsize) →
      (∀ i' x, i' < i → chainVal a a i' x ≤ st.bestsize) →
      (∀ x, x ∉ L → st.row x = chainVal a a i x) →
      (innerLoop oldRow i 0 a.length L st).besti =
          (innerLoop oldRow i 0 a.length L st).bestj ∧
        (∀ x, chainVal a a i x ≤ (innerLoop oldRow i 0 a.length L st).bestsize) ∧
        (∀ i' x, i' < i → chainVal a a i' x ≤ (innerLoop oldRow i 0 a.length L st).bestsize) ∧
        (∀ x, (innerLoop oldRow i 0 a.length L st).row x = chainVal a a i x) := by
  intro L
  induction L with
  | nil =>
    intro st _ _ hdiag hprev hrows hrow
    exact ⟨hdiag, fun x => hprev x (by simp), hrows, fun x => hrow x (by simp)⟩
  | cons j rest ih =>
    intro st hLp hL hdiag hprev hrows hrow
    have hjmem : j ∈ b2jFn a (a.getD i ' ') := hL j (List.mem_cons_self _ _)
    obtain ⟨hjlen, hjchar⟩ := mem_b2jFn hjmem
    rw [innerLoop, if_neg (Nat.not_lt_zero j), if_neg (by omega : ¬ a.length ≤ j)]
    have hk : chainK oldRow j = chainVal a a i j := chainK_eq_chainVal holdEq hjmem
    have hrestmem : ∀ x ∈ rest, x ∈ b2jFn a (a.getD i ' ') :=
      fun x hx => hL x (List.mem_cons_of_mem _ hx)
    by_cases hupd : st.bestsize < chainK oldRow j
    · -- the update can only fire on the diagonal
      have hij : i = j := by
        by_contra hne
        rcases Nat.lt_or_ge j i with hji | hij2
        · have h1 := hrows j j hji
          have h2 := chainVal_transport a i j
          rw [Nat.min_eq_right (Nat.le_of_lt hji)] at h2
          omega
        · have hij3 : i < j := by omega
          have hnotL : i ∉ j :: rest := by
            intro hmem2
            rcases List.mem_cons.mp hmem2 with h | h
            · omega
            · have := List.rel_of_pairwise_cons hLp h
              omega
          have h1 := hprev i hnotL
          have h2 := chainVal_transport a i j
          rw [Nat.min_eq_left (Nat.le_of_lt hij3)] at h2
          omega
      rw [innerStep_pos oldRow i j st hupd]
      subst hij
      apply ih
      · exact List.pairwise_cons.mp hLp |>.2
      · exact hrestmem
      · rfl
      · intro x hx
        show chainVal a a i x ≤ chainK oldRow i
        by_cases hxj : x = i
        · subst hxj
          omega
        · have : x ∉ i :: rest := by
            intro hmem2
            rcases List.mem_cons.mp hmem2 with h | h
            · exact hxj h
            · exact hx h
          have := hprev x this
          omega
      · intro i' x hi'
        show chainVal a a i' x ≤ chainK oldRow i
        have := hrows i' x hi'
        omega
      · intro x hx
        show (if x = i then chainK oldRow i else st.row x) = chainVal a a i x
        by_cases hxj : x = i
        · subst hxj
          rw [if_pos rfl]
          exact hk
        · rw [if_neg hxj]
          apply hrow
          intro hmem2
          rcases List.mem_cons.mp hmem2 with h | h
          · exact hxj h
          · exact hx h
    · rw [innerStep_neg oldRow i j st hupd]
      apply ih
      · exact List.pairwise_cons.mp hLp |>.2
      · exact hrestmem
      · exact hdiag
      · intro x hx
        show chainVal a a i x ≤ st.bestsize
        by_cases hxj : x = j
        · subst hxj
          omega
        · apply hprev
          intro hmem2
          rcases List.mem_cons.mp hmem2 with h | h
          · exact hxj h
          · exact hx h
      · intro i' x hi'
        exact hrows i' x hi'
      · intro x hx
        show (if x = j then chainK oldRow j else st.row x) = chainVal a a i x
        by_cases hxj : x = j
        · subst hxj
          rw [if_pos rfl]
          exact hk
        · rw [if_neg hxj]
          apply hrow
          intro hmem2
          rcases List.mem_cons.mp hmem2 with h | h
          · exact hxj h
          · exact hx h

/-- Diagonal invariant of the row loop for `a` against itself over the full
range. -/
lemma rowsLoop_diag {a : List Char} :
    ∀ (c i : ℕ) (st : FlmState),
      st.besti = st.bestj →
      (∀ i' x, i' < i → chainVal a a i' x ≤ st.bestsize) →
      (∀ x, st.row x = prevChain a a i x) →
      (rowsLoop a a 0 a.length i c st).besti = (rowsLoop a a 0 a.length i c st).bestj ∧
        (∀ i' x, i' < i + c →
          chainVal a a i' x ≤ (rowsLoop a a 0 a.length i c st).bestsize) := by
  intro c
  induction c with
  | zero =>
    intro i st hdiag hrows _
    exact ⟨hdiag, fun i' x h => hrows i' x (by omega)⟩
  | succ c ih =>
    intro i st hdiag hrows hrowEq
    rw [rowsLoop]
    obtain ⟨hd1, hall, hrows1, hrow1⟩ :=
      innerLoop_diag (a := a) hrowEq
        (b2jFn a (a.getD i ' ')) { st with row := fun _ => 0 }
        (b2jFn_pairwise a (a.getD i ' ')) (fun x hx => hx) hdiag
        (fun x hx => by
          show chainVal a a i x ≤ st.bestsize
          rw [chainVal_of_not_mem hx]
          omega)
        (fun i' x h => hrows i' x h)
        (fun x hx => by
          show (0 : ℕ) = chainVal a a i x
          rw [chainVal_of_not_mem hx])
    obtain ⟨hfin1, hfin2⟩ := ih (i + 1) _ hd1
      (fun i' x h => by
        rcases Nat.lt_or_ge i' i with h2 | h2
        · exact hrows1 i' x h2
        · have : i' = i := by omega
          subst this
          exact hall x)
      (fun x => hrow1 x)
    refine ⟨hfin1, fun i' x h => hfin2 i' x (by omega)⟩

/-- The DP phase of `find_longest_match` on `a` against itself over the
full range returns a diagonal best match. -/
lemma mainLoop_diag (a : List Char) :
    (mainLoop a a 0 a.length 0 a.length).besti =
      (mainLoop a a 0 a.length 0 a.length).bestj := by
  unfold mainLoop
  have h := rowsLoop_diag (a := a) (a.length - 0) 0 ⟨0, 0, 0, fun _ => 0⟩ rfl
    (fun i' x h => by omega)
    (fun x => rfl)
  exact h.1

/-- Backward extension from a diagonal match over `a` against itself
extends all the way down to `(0, 0)`. -/
lemma backExt_diag (a : List Char) : ∀ (d bs : ℕ),
    backExt a a 0 0 d d bs = (0, 0, bs + d) := by
  intro d
  induction d with
  | zero =>
    intro bs
    rw [backExt]
    rfl
  | succ d ih =>
    intro bs
    rw [backExt, if_pos ⟨by omega, by omega, rfl⟩]
    simp only [Nat.add_sub_cancel]
    rw [ih (bs + 1)]
    have e : bs + 1 + d = bs + (d + 1) := by omega
    rw [e]

/-- Forward extension from `(0, 0)` over `a` against itself reaches the
full length. -/
lemma fwdExt_diag (a : List Char) : ∀ (fuel m : ℕ), m ≤ a.length →
    a.length - m ≤ fuel → fwdExt a a a.length a.length 0 0 fuel m = a.length := by
  intro fuel
  induction fuel with
  | zero =>
    intro m h1 h2
    rw [fwdExt]
    omega
  | succ fuel ih =>
    intro m h1 h2
    rw [fwdExt]
    by_cases hc : m < a.length
    · rw [if_pos ⟨by omega, by omega, rfl⟩]
      exact ih (m + 1) (by omega) (by omega)
    · rw [if_neg (fun hcon => hc (by have := hcon.1; omega))]
      omega

/-- `find_longest_match` on `a` against itself over the full range returns
the whole diagonal. -/
lemma flm_self (a : List Char) :
    flm a a 0 a.length 0 a.length = (0, 0, a.length) := by
  have hdiag := mainLoop_diag a
  obtain ⟨h1, h2, h3, h4, h5⟩ :=
    mainLoop_A (a := a) (b := a) (Nat.zero_le a.length) (Nat.zero_le a.length)
  show ((backExt a a 0 0 (mainLoop a a 0 a.length 0 a.length).besti
      (mainLoop a a 0 a.length 0 a.length).bestj
      (mainLoop a a 0 a.length 0 a.length).bestsize).1,
    (backExt a a 0 0 (mainLoop a a 0 a.length 0 a.length).besti
      (mainLoop a a 0 a.length 0 a.length).bestj
      (mainLoop a a 0 a.length 0 a.length).bestsize).2.1,
    fwdExt a a a.length a.length
      (backExt a a 0 0 (mainLoop a a 0 a.length 0 a.length).besti
        (mainLoop a a 0 a.length 0 a.length).bestj
        (mainLoop a a 0 a.length 0 a.length).bestsize).1
      (backExt a a 0 0 (mainLoop a a 0 a.length 0 a.length).besti
        (mainLoop a a 0 a.length 0 a.length).bestj
        (mainLoop a a 0 a.length 0 a.length).bestsize).2.1
      a.length
      (backExt a a 0 0 (mainLoop a a 0 a.length 0 a.length).besti
        (mainLoop a a 0 a.length 0 a.length).bestj
        (mainLoop a a 0 a.length 0 a.length).bestsize).2.2) = (0, 0, a.length)
  rw [← hdiag]
  rw [backExt_diag a (mainLoop a a 0 a.length 0 a.length).besti
    (mainLoop a a 0 a.length 0 a.length).bestsize]
  show (0, 0, fwdExt a a a.length a.length 0 0 a.length
    ((mainLoop a a 0 a.length 0 a.length).bestsize +
      (mainLoop a a 0 a.length 0 a.length).besti)) = (0, 0, a.length)
  rw [fwdExt_diag a a.length _ (by omega) (by omega)]

/-- The Similarity Scorer is reflexive at the top of its range. -/
lemma ratioVal_self (s : List Char) : ratioVal s s = 1 := by
  unfold ratioVal
  rcases Nat.eq_zero_or_pos s.length with h0 | hpos
  · rw [if_pos (by omega)]
  · rw [if_neg (by omega)]
    rw [blocksGo, flm_self]
    dsimp only
    rw [if_neg (by omega : ¬ s.length = 0)]
    rw [if_neg (by omega : ¬ ((0 : ℕ) < 0 ∧ (0 : ℕ) < 0))]
    rw [if_neg (by omega : ¬ (0 + s.length < s.length ∧ 0 + s.length < s.length))]
    rw [show ([] ++ [((0 : ℕ), (0 : ℕ), s.length)] ++ [] : List (ℕ × ℕ × ℕ)) =
      [(0, 0, s.length)] from by simp]
    rw [blockSizeSum_single]
    rw [Rat.mkRat_eq_div]
    have hden : (((s.length + s.length : ℕ)) : ℚ) ≠ 0 := by
      rw [Nat.cast_ne_zero]
      omega
    rw [div_eq_one_iff_eq hden]
    push_cast
    ring

/-- `ratioVal` agrees with the textbook form `2*M / T` of
`difflib._calculate_ratio`. -/
lemma ratioVal_eq_div (a b : List Char) (h : a.length + b.length ≠ 0) :
    ratioVal a b =
      (2 * (blockSizeSum
          (blocksGo a b (a.length + b.length + 1) 0 a.length 0 b.length) : ℚ)) /
        ((a.length : ℚ) + (b.length : ℚ)) := by
  unfold ratioVal
  rw [if_neg h, Rat.mkRat_eq_div]
  push_cast
  ring

/-- The score of the empty string against a non-empty string is 0. -/
lemma ratioVal_nil_left (s : List Char) (hs : s.length ≠ 0) :
    ratioVal [] s = 0 := by
  unfold ratioVal
  rw [if_neg (by simpa using hs)]
  rw [blocksGo]
  rw [show flm [] s 0 ([] : List Char).length 0 s.length = (0, 0, 0) from rfl]
  rw [if_pos (show ((0, 0, 0) : ℕ × ℕ × ℕ).2.2 = 0 from rfl)]
  rw [blockSizeSum_nil]
  rw [Rat.mkRat_eq_div]
  norm_num

end Difflib

/-!
Embedding of `InventoryService.match_product`
(backend/app/services/inventory_service.py, lines 82-143).  The database
table is a list of rows in iteration order; `query.filter_by(...).first()`
and `query.filter(...).first()` are `List.find?`, and `query.all()` is the
list itself.  SQL `=` on the `sku` text column is case-sensitive equality
(the default collation of the configured PostgreSQL database), while
`ilike` is the case-insensitive `LIKE` match with wildcards.
-/

/-- A row of the `inventory_master` table as read by the matcher; `id`
stands for the opaque primary key. -/
structure InventoryMaster where
  id : ℕ
  sku : PyStr
  name : PyStr
  aliases : List PyStr
  deriving DecidableEq

/-- PostgreSQL `LIKE` pattern matching: `%` matches any sequence, `_` any
single character, and backslash escapes the following character (a pattern
ending in a bare backslash, an error in PostgreSQL, is treated as a
literal).  `fuel` bounds the recursion; any fuel above
`pattern.length + s.length` is enough, since every step shortens the
pattern or the string. -/
def lkMatch : ℕ → List Char → List Char → Bool
  | 0, _, _ => false
  | _ + 1, [], s => s.isEmpty
  | fuel + 1, '%' :: p, s =>
      lkMatch fuel p s ||
        (match s with
          | [] => false
          | _ :: s2 => lkMatch fuel ('%' :: p) s2)
  | fuel + 1, '_' :: p, s =>
      (match s with
        | [] => false
        | _ :: s2 => lkMatch fuel p s2)
  | fuel + 1, '\\' :: c :: p, s =>
      (match s with
        | [] => false
        | d :: s2 => c == d && lkMatch fuel p s2)
  | fuel + 1, c :: p, s =>
      (match s with
        | [] => false
        | d :: s2 => c == d && lkMatch fuel p s2)

/-- PostgreSQL `ILIKE`: case-insensitive `LIKE`, lowering both the column
value `s` and the pattern. -/
def pgIlike (s pattern : PyStr) : Bool :=
  lkMatch (pattern.length + s.length + 1) (pyLower pattern) (pyLower s)

/-- `Config.FUZZY_MATCH_THRESHOLD = 0.6` (smolvlm config.py line 29); the
float literal 0.6 denotes the rational 3/5. -/
def Config.FUZZY_MATCH_THRESHOLD : ℚ := mkRat 3 5

namespace InventoryService

/-- Tier 1 of `match_product`: `db.query(InventoryMaster)
.filter_by(sku=detected_lower).first()` — SQL `=` against the already
lower-cased detected name. -/
def skuTier (db : List InventoryMaster) (d : PyStr) : Option InventoryMaster :=
  db.find? (fun item => item.sku == d)

/-- Tier 2 of `match_product`: `.filter(InventoryMaster.name
.ilike(detected_lower)).first()`. -/
def nameTier (db : List InventoryMaster) (d : PyStr) : Option InventoryMaster :=
  db.find? (fun item => pgIlike item.name d)

/-- Tier 3 of `match_product`: first item one of whose aliases equals the
lowered detected name. -/
def aliasTier (db : List InventoryMaster) (d : PyStr) : Option InventoryMaster :=
  db.find? (fun item => item.aliases.any (fun al => pyLower al == d))

/-- One comparison of the fuzzy sweep: score the detected name against one
key of `item` and keep the strictly better of it and the accumulator
(`if score > best_score`). -/
def fuzzyStep (d : PyStr) (item : InventoryMaster)
    (acc : Option InventoryMaster × ℚ) (key : PyStr) : Option InventoryMaster × ℚ :=
  let score := Difflib.ratioVal d (pyLower key)
  if acc.2 < score then (some item, score) else acc

/-- Tier 4 of `match_product` (lines 117-143): sweep every item's name and
aliases, keep the single best score, and return the owner if the best
score reaches the threshold. -/
def fuzzyTier (db : List InventoryMaster) (d : PyStr) : Option InventoryMaster :=
  let best := db.foldl
    (fun acc item =>
      item.aliases.foldl (fuzzyStep d item) (fuzzyStep d item acc item.name))
    ((none : Option InventoryMaster), (0 : ℚ))
  if Config.FUZZY_MATCH_THRESHOLD ≤ best.2 then best.1 else none

/-- `InventoryService.match_product(db, detected_name)`: normalize once,
then the four tiers in order, each early-returning on a hit. -/
def match_product (db : List InventoryMaster) (detected_name : PyStr) :
    Option InventoryMaster :=
  let detected_lower := pyStrip (pyLower detected_name)
  match skuTier db detected_lower with
  | some item => some item
  | none =>
    match nameTier db detected_lower with
    | some item => some item
    | none =>
      match aliasTier db detected_lower with
      | some item => some item
      | none => fuzzyTier db detected_lower

/-- The sweep order of the fuzzy tier, flattened: for each item its name
score then its alias scores, each paired with the owning item. -/
def fuzzyPairs (db : List InventoryMaster) (d : PyStr) : List (ℚ × InventoryMaster) :=
  (db.map (fun item =>
    (Difflib.ratioVal d (pyLower item.name), item) ::
      item.aliases.map (fun al => (Difflib.ratioVal d (pyLower al), item)))).flatten

/-- One step of the flattened fuzzy sweep. -/
def bestStep (acc : Option InventoryMaster × ℚ) (p : ℚ × InventoryMaster) :
    Option InventoryMaster × ℚ :=
  if acc.2 < p.1 then (some p.2, p.1) else acc

/-- The maximum of the scores of `L`, starting from `s`. -/
def maxOf (s : ℚ) (L : List (ℚ × InventoryMaster)) : ℚ :=
  L.foldl (fun a p => max a p.1) s

end InventoryService

namespace InventoryService

lemma fuzzyStep_eq_bestStep (d : PyStr) (item : InventoryMaster)
    (acc : Option InventoryMaster × ℚ) (key : PyStr) :
    fuzzyStep d item acc key = bestStep acc (Difflib.ratioVal d (pyLower key), item) := rfl

/-- The nested per-item fold of the fuzzy tier equals the fold of the
flattened sweep. -/
lemma fuzzy_fold_flat (d : PyStr) :
    ∀ (db : List InventoryMaster) (acc : Option InventoryMaster × ℚ),
      db.foldl
        (fun acc item =>
          item.aliases.foldl (fuzzyStep d item) (fuzzyStep d item acc item.name)) acc =
      (fuzzyPairs db d).foldl bestStep acc := by
  intro db
  induction db with
  | nil => intro acc; rfl
  | cons item rest ih =>
    intro acc
    rw [List.foldl_cons]
    rw [ih]
    show (fuzzyPairs rest d).foldl bestStep
        (item.aliases.foldl (fuzzyStep d item) (fuzzyStep d item acc item.name)) =
      (fuzzyPairs (item :: rest) d).foldl bestStep acc
    have hconv : item.aliases.foldl (fuzzyStep d item) (fuzzyStep d item acc item.name) =
        (item.aliases.map (fun al => (Difflib.ratioVal d (pyLower al), item))).foldl
          bestStep (bestStep acc (Difflib.ratioVal d (pyLower item.name), item)) := by
      rw [List.foldl_map]
      rfl
    rw [hconv]
    have hpairs : fuzzyPairs (item :: rest) d =
        ((Difflib.ratioVal d (pyLower item.name), item) ::
          item.aliases.map (fun al => (Difflib.ratioVal d (pyLower al), item))) ++
          fuzzyPairs rest d := by
      unfold fuzzyPairs
      rw [List.map_cons, List.flatten_cons]
    rw [hpairs, List.foldl_append, List.foldl_cons]

lemma le_maxOf_init (s : ℚ) (L : List (ℚ × InventoryMaster)) : s ≤ maxOf s L := by
  induction L generalizing s with
  | nil => exact le_rfl
  | cons h t ih =>
    calc s ≤ max s h.1 := le_max_left _ _
    _ ≤ maxOf (max s h.1) t := ih (max s h.1)

lemma le_maxOf_of_mem {p : ℚ × InventoryMaster} {L : List (ℚ × InventoryMaster)}
    (hp : p ∈ L) (s : ℚ) : p.1 ≤ maxOf s L := by
  induction L generalizing s with
  | nil => simp at hp
  | cons h t ih =>
    rcases List.mem_cons.mp hp with h1 | h1
    · subst h1
      calc p.1 ≤ max s p.1 := le_max_right _ _
      _ ≤ maxOf (max s p.1) t := le_maxOf_init _ _
    · exact ih h1 (max s h.1)

lemma maxOf_attained (s : ℚ) (L : List (ℚ × InventoryMaster)) :
    maxOf s L = s ∨ ∃ p ∈ L, p.1 = maxOf s L := by
  induction L generalizing s with
  | nil => exact Or.inl rfl
  | cons h t ih =>
    rcases ih (max s h.1) with h1 | h1
    · rcases max_choice s h.1 with h2 | h2
      · exact Or.inl (h1.trans h2)
      · exact Or.inr ⟨h, List.mem_cons_self _ _, (h1.trans h2).symm⟩
    · obtain ⟨p, hp, hpe⟩ := h1
      exact Or.inr ⟨p, List.mem_cons_of_mem _ hp, hpe⟩

/-- The second component of the fuzzy fold is the running maximum. -/
lemma foldl_bestStep_snd (L : List (ℚ × InventoryMaster)) :
    ∀ (m : Option InventoryMaster) (s : ℚ), (L.foldl bestStep (m, s)).2 = maxOf s L := by
  induction L with
  | nil => intro m s; rfl
  | cons h t ih =>
    intro m s
    rw [List.foldl_cons]
    by_cases hc : s < h.1
    · rw [show bestStep (m, s) h = (some h.2, h.1) from by unfold bestStep; rw [if_pos hc]]
      rw [ih (some h.2) h.1]
      show maxOf h.1 t = maxOf (max s h.1) t
      rw [max_eq_right (le_of_lt hc)]
    · rw [show bestStep (m, s) h = (m, s) from by unfold bestStep; rw [if_neg hc]]
      rw [ih m s]
      show maxOf s t = maxOf (max s h.1) t
      rw [max_eq_left (le_of_not_lt hc)]

/-- If no score beats the starting value, the fold does not move. -/
lemma foldl_bestStep_stable {L : List (ℚ × InventoryMaster)} {s : ℚ}
    (h : ∀ p ∈ L, p.1 ≤ s) (m : Option InventoryMaster) :
    L.foldl bestStep (m, s) = (m, s) := by
  induction L with
  | nil => rfl
  | cons p t ih =>
    rw [List.foldl_cons]
    unfold bestStep
    rw [if_neg (not_lt.mpr (h p (List.mem_cons_self _ _)))]
    exact ih (fun q hq => h q (List.mem_cons_of_mem _ hq))

/-- If some score beats the starting value, the fold returns the first
owner attaining the maximum (ties keep the first-encountered pair). -/
lemma foldl_bestStep_argmax {L : List (ℚ × InventoryMaster)} :
    ∀ {m : Option InventoryMaster} {s : ℚ}, (∃ p ∈ L, s < p.1) →
      (L.foldl bestStep (m, s)).1 =
        (L.find? (fun p => p.1 == maxOf s L)).map Prod.snd := by
  induction L with
  | nil => intro m s hex; simp at hex
  | cons h t ih =>
    intro m s hex
    have hsM : s < maxOf s (h :: t) := by
      obtain ⟨p, hp, hlt⟩ := hex
      exact lt_of_lt_of_le hlt (le_maxOf_of_mem hp s)
    have hhle : h.1 ≤ maxOf s (h :: t) := le_maxOf_of_mem (List.mem_cons_self _ _) s
    by_cases hh : h.1 = maxOf s (h :: t)
    · have hstep : bestStep (m, s) h = (some h.2, h.1) := by
        unfold bestStep
        rw [if_pos (by rw [hh]; exact hsM)]
      rw [List.foldl_cons, hstep]
      have hall : ∀ p ∈ t, p.1 ≤ h.1 := by
        intro p hp
        rw [hh]
        show p.1 ≤ maxOf (max s h.1) t
        exact le_maxOf_of_mem hp _
      rw [foldl_bestStep_stable hall]
      rw [List.find?_cons_of_pos _ (by simp [hh])]
      rfl
    · have hhlt : h.1 < maxOf s (h :: t) := lt_of_le_of_ne hhle hh
      have hmax : maxOf s (h :: t) = maxOf (max s h.1) t := rfl
      have hex2 : ∃ p ∈ t, max s h.1 < p.1 := by
        rcases maxOf_attained (max s h.1) t with h1 | h1
        · exfalso
          rw [hmax, h1] at hsM hhlt
          rcases max_choice s h.1 with h2 | h2
          · rw [h2] at hsM
            exact absurd hsM (lt_irrefl _)
          · rw [h2] at hhlt
            exact absurd hhlt (lt_irrefl _)
        · obtain ⟨p, hp, hpe⟩ := h1
          refine ⟨p, hp, ?_⟩
          rw [hpe, ← hmax]
          rcases max_choice s h.1 with h2 | h2
          · rw [h2]
            exact hsM
          · rw [h2]
            exact hhlt
      rw [List.foldl_cons]
      rw [List.find?_cons_of_neg _ (by simp [hh])]
      by_cases hc : s < h.1
      · rw [show bestStep (m, s) h = (some h.2, h.1) from by unfold bestStep; rw [if_pos hc]]
        have hmax2 : max s h.1 = h.1 := max_eq_right (le_of_lt hc)
        rw [hmax2] at hex2
        rw [ih hex2]
        rw [hmax, hmax2]
      · rw [show bestStep (m, s) h = (m, s) from by unfold bestStep; rw [if_neg hc]]
        have hmax2 : max s h.1 = s := max_eq_left (le_of_not_lt hc)
        rw [hmax2] at hex2
        rw [ih hex2]
        rw [hmax, hmax2]

end InventoryService

/-!
Embedding of `OllamaService._parse_response` and the
`OllamaDetectionResult` constructor
(backend/app/services/ollama_service.py, lines 11-16 and 102-138).

JSON documents are the inductive `Json`; numbers are rationals (the model
of Python floats; non-finite literals are outside the domain).  Python
exceptions relevant to the extractor are the constructors of `PyErr`; the
inner `except (ValueError, TypeError, KeyError)` of the product loop and
the outer `except Exception` are matches on `Except PyErr`.  `json.loads`
itself is standard-library code outside this repository and enters the
model as an explicit argument `loads`; any parse failure (its
`JSONDecodeError`) is its `Except.error` case.
-/

/-- A parsed JSON document / Python object tree. -/
inductive Json where
  | null : Json
  | bool (b : Bool) : Json
  | num (q : ℚ) : Json
  | str (s : PyStr) : Json
  | arr (xs : List Json) : Json
  | obj (kvs : List (PyStr × Json)) : Json

/-- The Python exception classes observable in `_parse_response`. -/
inductive PyErr where
  | valueError
  | typeError
  | keyError
  | attributeError
  deriving DecidableEq

/-- Python `dict.get(key, default)` on a parsed JSON object. -/
def dictGet (kvs : List (PyStr × Json)) (key : PyStr) (dflt : Json) : Json :=
  match kvs.find? (fun kv => kv.1 == key) with
  | some kv => kv.2
  | none => dflt

/-- `value.get(key, default)`: an `AttributeError` when the receiver is not
a dict (e.g. `'int' object has no attribute 'get'`). -/
def jsonGetE (j : Json) (key : PyStr) (dflt : Json) : Except PyErr Json :=
  match j with
  | Json.obj kvs => Except.ok (dictGet kvs key dflt)
  | _ => Except.error PyErr.attributeError

/-- Python iteration `for product in value`: lists yield their elements,
strings their characters, dicts their keys; other values raise
`TypeError`. -/
def pyIter (j : Json) : Except PyErr (List Json) :=
  match j with
  | Json.arr xs => Except.ok xs
  | Json.str s => Except.ok (s.map (fun c => Json.str [c]))
  | Json.obj kvs => Except.ok (kvs.map (fun kv => Json.str kv.1))
  | _ => Except.error PyErr.typeError

/-- Python decimal string syntax accepted by `float()`: optional
whitespace and sign, digits with an optional point and an optional
exponent.  Returns the exact rational value.  (The non-finite literals
`inf`/`nan` have no rational value and are outside the model.) -/
def parseDecimal (s : PyStr) : Option ℚ :=
  let s1 := pyStrip s
  let (neg, s2) : Bool × PyStr :=
    match s1 with
    | '-' :: r => (true, r)
    | '+' :: r => (false, r)
    | r => (false, r)
  let intPart := s2.takeWhile Char.isDigit
  let rest1 := s2.drop intPart.length
  let (fracPart, rest2) : PyStr × PyStr :=
    match rest1 with
    | '.' :: r => (r.takeWhile Char.isDigit, r.drop (r.takeWhile Char.isDigit).length)
    | r => ([], r)
  if intPart.isEmpty ∧ fracPart.isEmpty then none
  else
    let mant : ℕ := (intPart ++ fracPart).foldl (fun n c => 10 * n + (c.toNat - 48)) 0
    let mkVal : ℤ → Option ℚ := fun e10 =>
      let sgn : ℤ := if neg then -1 else 1
      if 0 ≤ e10 then
        some (mkRat (sgn * mant * (10 ^ e10.toNat : ℕ)) (10 ^ fracPart.length))
      else
        some (mkRat (sgn * mant) (10 ^ fracPart.length * 10 ^ (-e10).toNat))
    match rest2 with
    | [] => mkVal 0
    | e :: r =>
      if e == 'e' ∨ e == 'E' then
        let (eneg, r2) : Bool × PyStr :=
          match r with
          | '-' :: rr => (true, rr)
          | '+' :: rr => (false, rr)
          | rr => (false, rr)
        if r2.isEmpty ∨ ¬ r2.all Char.isDigit then none
        else
          let ev : ℕ := r2.foldl (fun n c => 10 * n + (c.toNat - 48)) 0
          mkVal (if eneg then -(ev : ℤ) else (ev : ℤ))
      else none

/-- Python `float(x)`: floats and ints pass through, bools become 0/1,
strings are parsed (`ValueError` on failure), `None` and containers raise
`TypeError`. -/
def pyFloat (j : Json) : Except PyErr ℚ :=
  match j with
  | Json.num q => Except.ok q
  | Json.bool b => Except.ok (if b then 1 else 0)
  | Json.str s =>
    match parseDecimal s with
    | some q => Except.ok q
    | none => Except.error PyErr.valueError
  | _ => Except.error PyErr.typeError

/-- Truncation toward zero, the effect of Python `int()` on a float. -/
def ratTrunc (q : ℚ) : ℤ :=
  if 0 ≤ q.num then ((q.num.toNat / q.den : ℕ) : ℤ)
  else -(((-q.num).toNat / q.den : ℕ) : ℤ)

/-- Python integer string syntax accepted by `int()`: optional whitespace
and sign, then digits only. -/
def parseInteger (s : PyStr) : Option ℤ :=
  let s1 := pyStrip s
  let (neg, s2) : Bool × PyStr :=
    match s1 with
    | '-' :: r => (true, r)
    | '+' :: r => (false, r)
    | r => (false, r)
  if s2.isEmpty ∨ ¬ s2.all Char.isDigit then none
  else
    let v : ℕ := s2.foldl (fun n c => 10 * n + (c.toNat - 48)) 0
    some (if neg then -(v : ℤ) else (v : ℤ))

/-- Python `int(x)`: numbers truncate toward zero, bools become 0/1,
strings are parsed (`ValueError` on failure), `None` and containers raise
`TypeError`. -/
def pyInt (j : Json) : Except PyErr ℤ :=
  match j with
  | Json.num q => Except.ok (ratTrunc q)
  | Json.bool b => Except.ok (if b then 1 else 0)
  | Json.str s =>
    match parseInteger s with
    | some v => Except.ok v
    | none => Except.error PyErr.valueError
  | _ => Except.error PyErr.typeError

/-- `.strip()` on the value bound to `product_name`: an `AttributeError`
when it is not a string. -/
def pyStrAttr (j : Json) : Except PyErr PyStr :=
  match j with
  | Json.str s => Except.ok (pyStrip s)
  | _ => Except.error PyErr.attributeError

/-- `OllamaDetectionResult` after construction: name stripped, confidence
clamped to `[0, 1]` by `min(max(confidence, 0.0), 1.0)`, quantity floored
to 1 by `max(quantity, 1)`. -/
structure OllamaDetectionResult where
  product_name : PyStr
  confidence : ℚ
  quantity : ℤ
  deriving DecidableEq

namespace OllamaService

/-- Evaluation of `OllamaDetectionResult(product_name=product.get("name",
""), confidence=float(product.get("confidence", 0.0)),
quantity=int(product.get("quantity", 1)))` in Python order: the three
`get` calls and coercions left to right, then the constructor body with
its `.strip()`, clamp and floor. -/
def buildGuess (product : Json) : Except PyErr OllamaDetectionResult :=
  match jsonGetE product ("name".toList) (Json.str []) with
  | Except.error e => Except.error e
  | Except.ok nameJ =>
    match jsonGetE product ("confidence".toList) (Json.num 0) with
    | Except.error e => Except.error e
    | Except.ok confJ =>
      match pyFloat confJ with
      | Except.error e => Except.error e
      | Except.ok conf =>
        match jsonGetE product ("quantity".toList) (Json.num 1) with
        | Except.error e => Except.error e
        | Except.ok qtyJ =>
          match pyInt qtyJ with
          | Except.error e => Except.error e
          | Except.ok qty =>
            match pyStrAttr nameJ with
            | Except.error e => Except.error e
            | Except.ok name => Except.ok ⟨name, min (max conf 0) 1, max qty 1⟩

/-- The product loop of `_parse_response` (lines 117-131): build each
entry, keep those with a non-empty name, skip entries raising
`ValueError`/`TypeError`/`KeyError` (`continue`), and propagate any other
exception to the outer handler. -/
def parseLoop : List Json → List OllamaDetectionResult →
    Except PyErr (List OllamaDetectionResult)
  | [], acc => Except.ok acc
  | p :: rest, acc =>
    match buildGuess p with
    | Except.ok g =>
      if g.product_name.isEmpty then parseLoop rest acc
      else parseLoop rest (acc ++ [g])
    | Except.error e =>
      match e with
      | PyErr.valueError => parseLoop rest acc
      | PyErr.typeError => parseLoop rest acc
      | PyErr.keyError => parseLoop rest acc
      | PyErr.attributeError => Except.error PyErr.attributeError

/-- The body of `_parse_response` after a successful `json.loads`, up to
the outer `except Exception`. -/
def parseBody (data : Json) : Except PyErr (List OllamaDetectionResult) :=
  match jsonGetE data ("products".toList) (Json.arr []) with
  | Except.error e => Except.error e
  | Except.ok prods =>
    match pyIter prods with
    | Except.error e => Except.error e
    | Except.ok items => parseLoop items []

/-- The slice `response_text[start:end]` with `end = rfind + 1`. -/
def jsonSlice (response_text : PyStr) (start rf : ℕ) : PyStr :=
  (response_text.drop start).take (rf + 1 - start)

/-- `OllamaService._parse_response(response_text)`: locate the first `{`
and the last `}`, slice, parse (via the `loads` oracle standing for
`json.loads`), walk the products; the missing-brace check and the two
`except` clauses each return the empty list. -/
def parse_response (loads : PyStr → Except Unit Json) (response_text : PyStr) :
    List OllamaDetectionResult :=
  match pyFind response_text '{' with
  | none => []
  | some start =>
    match pyRFind response_text '}' with
    | none => []
    | some rf =>
      match loads (jsonSlice response_text start rf) with
      | Except.error _ => []
      | Except.ok data =>
        match parseBody data with
        | Except.ok results => results
        | Except.error _ => []

end OllamaService

/-!
Embedding of the endpoint `detect_from_image`
(smolvlm/visionscan-pos/backend/app/routers/detect.py, lines 26-100).

The relevant Python exception classes and their inheritance, as fixed by
the language and the installed libraries:

* `fastapi.HTTPException` derives from `Exception` (via
  `starlette.exceptions.HTTPException`); it is neither a `ValueError` nor
  a builtin `ConnectionError`.
* `requests.exceptions.ConnectionError` and `requests.exceptions.Timeout`
  derive from `requests.exceptions.RequestException`, which derives from
  `IOError` (`OSError`).  None of them derives from the *builtin*
  `ConnectionError` (which is a different `OSError` subclass), so the
  router's bare `except ConnectionError` clause does not catch them.
* `ValueError` (including pydantic validation errors) is caught by the
  first clause.

The outcome of the network call `ollama_service.detect_products` is passed
in as an `Except`: `Except.ok` carries the parsed guesses and the reported
processing time, `Except.error` the exception it raised.
-/

/-- The exceptions that can cross `detect_from_image`'s `try` block. -/
inductive DetectExc where
  | httpExc (status : ℕ) (detail : String)
  | valueError (msg : String)
  | requestsConnectionError
  | requestsTimeout
  | requestsRequestException
  | builtinConnectionError
  | otherExc
  deriving DecidableEq

/-- `isinstance(e, ValueError)`. -/
def DetectExc.isValueError : DetectExc → Bool
  | DetectExc.valueError _ => true
  | _ => false

/-- `isinstance(e, ConnectionError)` for the *builtin* `ConnectionError`:
true only for it — `requests.exceptions.ConnectionError` is not a
subclass. -/
def DetectExc.isBuiltinConnectionError : DetectExc → Bool
  | DetectExc.builtinConnectionError => true
  | _ => false

/-- `str(e)` for the exceptions whose message reaches a response. -/
def DetectExc.msg : DetectExc → String
  | DetectExc.valueError m => m
  | DetectExc.httpExc _ m => m
  | _ => ""

/-- A scan session row, as checked by the endpoint. -/
structure ScanSession where
  id : ℕ
  status : PyStr
  deriving DecidableEq

/-- One entry of the response schema `DetectionResult`
(backend/app/schemas/scan_item.py, lines 68-76). -/
structure DetectionResult where
  inventory_id : ℕ
  name : PyStr
  sku : PyStr
  confidence : ℚ
  quantity : ℤ
  matched_from : PyStr
  deriving DecidableEq

/-- The matching loop of `detect_from_image` (lines 62-81): match each
guess against inventory and keep a `DetectionResult` for every hit;
guesses with no match are dropped. -/
def assembleResults (db : List InventoryMaster)
    (ollama_results : List OllamaDetectionResult) : List DetectionResult :=
  ollama_results.foldl
    (fun acc g =>
      match InventoryService.match_product db g.product_name with
      | some best_match =>
        acc ++ [⟨best_match.id, best_match.name, best_match.sku,
          g.confidence, g.quantity, g.product_name⟩]
      | none => acc)
    []

/-- The `try` block of `detect_from_image` (lines 44-87): empty inventory
raises `HTTPException(400)` inside the block; then the network call (its
outcome passed as `ollama`), then matching and assembly. -/
def detectTryBody (inventory : List InventoryMaster)
    (ollama : Except DetectExc (List OllamaDetectionResult × ℕ)) :
    Except DetectExc (List DetectionResult × ℕ) :=
  if (inventory.map (fun item => item.name)).isEmpty then
    Except.error (DetectExc.httpExc 400 "No inventory items available for matching")
  else
    match ollama with
    | Except.error e => Except.error e
    | Except.ok (ollama_results, processing_time) =>
      Except.ok (assembleResults inventory ollama_results, processing_time)

/-- `detect_from_image(session_id, request)`: session checks outside the
`try`, then the body, then the `except` chain — `except ValueError` (400),
`except ConnectionError` (builtin only, 503), `except Exception` (500).
The result is the HTTP response: `Except.error` carries status and detail
of a raised `HTTPException`. -/
def detect_from_image (session : Option ScanSession)
    (inventory : List InventoryMaster)
    (ollama : Except DetectExc (List OllamaDetectionResult × ℕ)) :
    Except (ℕ × String) (List DetectionResult × ℕ) :=
  match session with
  | none => Except.error (404, "Session not found")
  | some s =>
    if ¬ (s.status == ("active".toList)) then
      Except.error (400, "Session is not active")
    else
      match detectTryBody inventory ollama with
      | Except.ok r => Except.ok r
      | Except.error e =>
        if DetectExc.isValueError e then Except.error (400, DetectExc.msg e)
        else if DetectExc.isBuiltinConnectionError e then
          Except.error (503, "Detection service unavailable. Is Ollama running?")
        else Except.error (500, "Detection failed")

namespace OllamaService

/-- The bounds enforced by the `OllamaDetectionResult` constructor. -/
def GuessBounds (g : OllamaDetectionResult) : Prop :=
  0 ≤ g.confidence ∧ g.confidence ≤ 1 ∧ 1 ≤ g.quantity

lemma buildGuess_bounds {product : Json} {g : OllamaDetectionResult}
    (h : buildGuess product = Except.ok g) : GuessBounds g := by
  unfold buildGuess at h
  repeat' split at h
  all_goals try exact Except.noConfusion h
  injection h with h2
  subst h2
  refine ⟨?_, ?_, ?_⟩
  · exact le_min (le_max_right _ _) (by norm_num)
  · exact min_le_right _ _
  · exact le_max_right _ _

lemma parseLoop_bounds :
    ∀ (items : List Json) (acc gs : List OllamaDetectionResult),
      (∀ g ∈ acc, GuessBounds g) → parseLoop items acc = Except.ok gs →
      ∀ g ∈ gs, GuessBounds g := by
  intro items
  induction items with
  | nil =>
    intro acc gs hacc h g hg
    rw [parseLoop] at h
    injection h with h2
    subst h2
    exact hacc g hg
  | cons p rest ih =>
    intro acc gs hacc h g hg
    rw [parseLoop] at h
    split at h
    · next g2 hb =>
      split at h
      · exact ih acc gs hacc h g hg
      · refine ih _ gs ?_ h g hg
        intro g3 hg3
        rcases List.mem_append.mp hg3 with h3 | h3
        · exact hacc g3 h3
        · have : g3 = g2 := by simpa using h3
          subst this
          exact buildGuess_bounds hb
    · next e hb =>
      split at h
      · exact ih acc gs hacc h g hg
      · exact ih acc gs hacc h g hg
      · exact ih acc gs hacc h g hg
      · exact absurd h (by simp)

/-- Every guess produced by the extractor satisfies the bounds. -/
lemma parse_response_bounds (loads : PyStr → Except Unit Json) (text : PyStr) :
    ∀ g ∈ parse_response loads text, GuessBounds g := by
  intro g hg
  unfold parse_response at hg
  split at hg
  · simp at hg
  · split at hg
    · simp at hg
    · split at hg
      · simp at hg
      · split at hg
        · next results hbody =>
          unfold parseBody at hbody
          split at hbody
          · exact Except.noConfusion hbody
          · split at hbody
            · exact Except.noConfusion hbody
            · exact parseLoop_bounds _ [] results (by simp) hbody g hg
        · simp at hg

end OllamaService

/-- The outcome-assembly loop only copies guess fields, so outcome bounds
follow from guess bounds. -/
lemma assembleResults_bounds (db : List InventoryMaster) :
    ∀ (guesses : List OllamaDetectionResult) (acc : List DetectionResult),
      (∀ g ∈ guesses, OllamaService.GuessBounds g) →
      (∀ r ∈ acc, 0 ≤ r.confidence ∧ r.confidence ≤ 1 ∧ 1 ≤ r.quantity) →
      ∀ r ∈ guesses.foldl
        (fun acc g =>
          match InventoryService.match_product db g.product_name with
          | some best_match =>
            acc ++ [⟨best_match.id, best_match.name, best_match.sku,
              g.confidence, g.quantity, g.product_name⟩]
          | none => acc)
        acc,
        0 ≤ r.confidence ∧ r.confidence ≤ 1 ∧ 1 ≤ r.quantity := by
  intro guesses
  induction guesses with
  | nil => intro acc _ hacc r hr; exact hacc r hr
  | cons g rest ih =>
    intro acc hg hacc r hr
    rw [List.foldl_cons] at hr
    have hgb := hg g (List.mem_cons_self _ _)
    have hrest : ∀ g2 ∈ rest, OllamaService.GuessBounds g2 :=
      fun g2 h2 => hg g2 (List.mem_cons_of_mem _ h2)
    revert hr
    split
    · next best hbm =>
      intro hr
      refine ih _ hrest ?_ r hr
      intro r2 hr2
      rcases List.mem_append.mp hr2 with h2 | h2
      · exact hacc r2 h2
      · have : r2 = ⟨best.id, best.name, best.sku, g.confidence, g.quantity,
            g.product_name⟩ := by simpa using h2
        subst this
        exact ⟨hgb.1, hgb.2.1, hgb.2.2⟩
    · intro hr
      exact ih _ hrest hacc r hr

/-!
The claims.
-/

deriving instance DecidableEq for Except

/-- C1: The Response Extractor is total on arbitrary input text — it is a
total function into lists of guesses, every exception of its body being
caught — and if the text contains no `{` or no `}` (the `find`/`rfind`
probes return no index), or the substring between the first `{` and the
last `}` fails to parse as JSON (the `loads` oracle errors), it returns
the empty sequence of guesses. -/
theorem C1_parse_response_total_malformed_empty
    (loads : PyStr → Except Unit Json) (text : PyStr) :
    ((pyFind text '{' = none ∨ pyRFind text '}' = none) →
      OllamaService.parse_response loads text = []) ∧
    (∀ s e, pyFind text '{' = some s → pyRFind text '}' = some e →
      loads (OllamaService.jsonSlice text s e) = Except.error () →
      OllamaService.parse_response loads text = []) := by
  constructor
  · intro h
    unfold OllamaService.parse_response
    rcases h with h | h
    · rw [h]
    · rcases hf : pyFind text '{' with _ | s
      · rfl
      · rw [h]
  · intro s e hs he hl
    unfold OllamaService.parse_response
    rw [hs, he]
    simp only [hl]

/-- C1 witness: concrete evaluations — brace-free text, and a slice the
parser rejects. -/
theorem C1_witness :
    OllamaService.parse_response (fun _ => Except.error ()) ("hello".toList) = [] ∧
      OllamaService.parse_response (fun _ => Except.error ()) ['{', '}'] = [] := by
  constructor
  · exact (C1_parse_response_total_malformed_empty _ _).1 (Or.inl (by decide))
  · exact (C1_parse_response_total_malformed_empty _ _).2 0 1 (by decide) (by decide) rfl

/-- C5: the Similarity Scorer (`SequenceMatcher(None, a, b).ratio()` as
used by the fuzzy tier) is reflexive at the top of its range: every string
scores 1.0 against itself, and 1.0 is attained only by identical
strings. -/
theorem C5_similarity_reflexive_top :
    (∀ s : List Char, Difflib.ratioVal s s = 1) ∧
      (∀ a b : List Char, Difflib.ratioVal a b = 1 → a = b) :=
  ⟨Difflib.ratioVal_self, fun _ _ h => Difflib.ratioVal_eq_one h⟩

/-- C5 witness: a concrete application of both halves. -/
theorem C5_witness :
    Difflib.ratioVal ("ab".toList) ("ab".toList) = 1 ∧
      ("ab".toList : List Char) = ("ab".toList) :=
  ⟨C5_similarity_reflexive_top.1 ("ab".toList),
    C5_similarity_reflexive_top.2 ("ab".toList) ("ab".toList) (by decide)⟩

/-- C6 (code bug): an entry whose `name` field is not a string raises an
`AttributeError` from `.strip()`, which the inner
`except (ValueError, TypeError, KeyError)` does not catch, so the outer
`except Exception` drops the WHOLE batch: with products
`[{"name": 5}, {"name": "X", "confidence": 0.9, "quantity": 2}]` the
extractor returns `[]` even though the valid sibling alone parses to one
guess — contradicting the documented skip-and-continue behaviour of the
loop. -/
theorem C6_attribute_error_drops_batch :
    OllamaService.parseLoop
        [Json.obj [("name".toList, Json.num 5)],
          Json.obj [("name".toList, Json.str ("X".toList)),
            ("confidence".toList, Json.num (mkRat 9 10)),
            ("quantity".toList, Json.num 2)]] [] =
      Except.error PyErr.attributeError ∧
    OllamaService.parse_response
        (fun _ => Except.ok (Json.obj [("products".toList,
          Json.arr [Json.obj [("name".toList, Json.num 5)],
            Json.obj [("name".toList, Json.str ("X".toList)),
              ("confidence".toList, Json.num (mkRat 9 10)),
              ("quantity".toList, Json.num 2)]])]))
        ['{', '}'] = [] ∧
    OllamaService.parse_response
        (fun _ => Except.ok (Json.obj [("products".toList,
          Json.arr [Json.obj [("name".toList, Json.str ("X".toList)),
            ("confidence".toList, Json.num (mkRat 9 10)),
            ("quantity".toList, Json.num 2)]])]))
        ['{', '}'] = [⟨"X".toList, mkRat 9 10, 2⟩] := by
  refine ⟨by decide, by decide, by decide⟩

/-- C8 (code bug): with an existing active session and an empty inventory,
the endpoint raises `HTTPException(400, "No inventory items available for
matching")` inside its own `try` block, where the final
`except Exception` catches it and replaces it with the generic
`HTTPException(500, "Detection failed")` — the response is independent of
the inference outcome (the call is never consulted), but it is NOT a
client-facing 400 precondition rejection distinct from upstream
failures. -/
theorem C8_empty_inventory_swallowed_to_500
    (ollama : Except DetectExc (List OllamaDetectionResult × ℕ)) (sid : ℕ) :
    detect_from_image (some ⟨sid, "active".toList⟩) [] ollama =
      Except.error (500, "Detection failed") := rfl

/-- C9 (code bug): a connection refusal surfaces from the Vision Inference
Client as `requests.exceptions.ConnectionError`, which is NOT a subclass
of the builtin `ConnectionError` named in the router's
`except ConnectionError` clause; the refusal therefore falls through to
`except Exception` and is returned as the generic internal error 500
"Detection failed" instead of the intended 503 service-unavailable
rejection (which only the builtin exception, never raised here, would
receive). -/
theorem C9_connection_refused_maps_to_500 :
    detect_from_image (some ⟨1, "active".toList⟩)
        [⟨1, "a".toList, "A".toList, []⟩]
        (Except.error DetectExc.requestsConnectionError) =
      Except.error (500, "Detection failed") ∧
    detect_from_image (some ⟨1, "active".toList⟩)
        [⟨1, "a".toList, "A".toList, []⟩]
        (Except.error DetectExc.builtinConnectionError) =
      Except.error (503, "Detection service unavailable. Is Ollama running?") := by
  refine ⟨rfl, rfl⟩

/-- Unfolding of `match_product` with the normalization substituted. -/
lemma InventoryService.match_product_def (db : List InventoryMaster) (n : PyStr) :
    InventoryService.match_product db n =
      match InventoryService.skuTier db (pyStrip (pyLower n)) with
      | some item => some item
      | none =>
        match InventoryService.nameTier db (pyStrip (pyLower n)) with
        | some item => some item
        | none =>
          match InventoryService.aliasTier db (pyStrip (pyLower n)) with
          | some item => some item
          | none => InventoryService.fuzzyTier db (pyStrip (pyLower n)) := rfl

/-- C2: the Matcher evaluates its four tiers in strict order and returns
the first tier's hit: a SKU-tier hit is returned unconditionally; the name
tier is consulted only when the SKU tier misses, the alias tier only when
both miss, and the fuzzy tier decides only when all three miss — in
particular an exact-SKU hit is returned regardless of any fuzzy score. -/
theorem C2_match_product_tier_order (db : List InventoryMaster) (name : PyStr) :
    (∀ item, InventoryService.skuTier db (pyStrip (pyLower name)) = some item →
      InventoryService.match_product db name = some item) ∧
    (InventoryService.skuTier db (pyStrip (pyLower name)) = none →
      ∀ item, InventoryService.nameTier db (pyStrip (pyLower name)) = some item →
        InventoryService.match_product db name = some item) ∧
    (InventoryService.skuTier db (pyStrip (pyLower name)) = none →
      InventoryService.nameTier db (pyStrip (pyLower name)) = none →
      ∀ item, InventoryService.aliasTier db (pyStrip (pyLower name)) = some item →
        InventoryService.match_product db name = some item) ∧
    (InventoryService.skuTier db (pyStrip (pyLower name)) = none →
      InventoryService.nameTier db (pyStrip (pyLower name)) = none →
      InventoryService.aliasTier db (pyStrip (pyLower name)) = none →
      InventoryService.match_product db name =
        InventoryService.fuzzyTier db (pyStrip (pyLower name))) := by
  refine ⟨?_, ?_, ?_, ?_⟩
  · intro item h
    rw [InventoryService.match_product_def, h]
  · intro h0 item h
    rw [InventoryService.match_product_def, h0, h]
  · intro h0 h1 item h
    rw [InventoryService.match_product_def, h0, h1, h]
  · intro h0 h1 h2
    rw [InventoryService.match_product_def, h0, h1, h2]

/-- C2 witness: the SKU hit on the first record is returned even though a
second record's name has a strictly higher fuzzy score against the
detected name. -/
theorem C2_witness :
    InventoryService.skuTier
        [⟨1, "abc".toList, "zzz".toList, []⟩, ⟨2, "k9".toList, "abx".toList, []⟩]
        (pyStrip (pyLower ("abc".toList))) = some ⟨1, "abc".toList, "zzz".toList, []⟩ ∧
    InventoryService.match_product
        [⟨1, "abc".toList, "zzz".toList, []⟩, ⟨2, "k9".toList, "abx".toList, []⟩]
        ("abc".toList) = some ⟨1, "abc".toList, "zzz".toList, []⟩ ∧
    Difflib.ratioVal ("abc".toList) (pyLower ("zzz".toList)) <
      Difflib.ratioVal ("abc".toList) (pyLower ("abx".toList)) := by
  refine ⟨by decide, ?_, by decide⟩
  exact (C2_match_product_tier_order
    [⟨1, "abc".toList, "zzz".toList, []⟩, ⟨2, "k9".toList, "abx".toList, []⟩]
    ("abc".toList)).1 ⟨1, "abc".toList, "zzz".toList, []⟩ (by decide)

/-- C3 counterexample: the claim as stated is false.  The candidate has
sku "ABC"; the detected name "ABC" equals it up to letter case (here even
verbatim), yet `match_product` returns no match at all — tier 1 compares
the *lower-cased* detected name "abc" with the stored sku "ABC" under
case-sensitive SQL equality, so a sku containing an upper-case letter can
never win tier 1. -/
theorem C3_counterexample :
    pyLower (pyStrip ("ABC".toList)) =
        pyLower (InventoryMaster.sku ⟨1, "ABC".toList, "Red Pen".toList, []⟩) ∧
      InventoryService.match_product [⟨1, "ABC".toList, "Red Pen".toList, []⟩]
        ("ABC".toList) = none := by
  refine ⟨by decide, by decide⟩

/-- C3 amended: the exact-SKU tier is case-insensitive only on the
detected-name side: it lower-cases and trims the detected name and then
requires *verbatim* equality with the stored sku.  Whenever some candidate
record's sku equals the trimmed lower-cased detected name, `match_product`
returns a candidate at tier 1 with that same sku (the first such row). -/
theorem C3_sku_tier_amended (db : List InventoryMaster) (d : PyStr)
    (c : InventoryMaster) (hc : c ∈ db) (hsku : pyStrip (pyLower d) = c.sku) :
    ∃ c2, InventoryService.match_product db d = some c2 ∧ c2.sku = c.sku := by
  have hsome : (InventoryService.skuTier db (pyStrip (pyLower d))).isSome := by
    unfold InventoryService.skuTier
    rw [List.find?_isSome]
    exact ⟨c, hc, by simp [hsku]⟩
  rcases hfind : InventoryService.skuTier db (pyStrip (pyLower d)) with _ | c2
  · rw [hfind] at hsome
    simp at hsome
  · refine ⟨c2, ?_, ?_⟩
    · rw [InventoryService.match_product_def, hfind]
    · have := List.find?_some hfind
      have h2 : c2.sku = pyStrip (pyLower d) := by simpa using this
      rw [h2, hsku]

/-- C3 amended witness: a lower-case sku "abc" is found for the detected
name " ABC " (case variant with surrounding whitespace). -/
theorem C3_amended_witness :
    (⟨1, "abc".toList, "Pen".toList, []⟩ : InventoryMaster) ∈
        [(⟨1, "abc".toList, "Pen".toList, []⟩ : InventoryMaster)] ∧
      pyStrip (pyLower (" ABC ".toList)) = "abc".toList ∧
      ∃ c2, InventoryService.match_product
          [(⟨1, "abc".toList, "Pen".toList, []⟩ : InventoryMaster)]
          (" ABC ".toList) = some c2 ∧
        c2.sku = InventoryMaster.sku ⟨1, "abc".toList, "Pen".toList, []⟩ := by
  refine ⟨by decide, by decide, ?_⟩
  exact C3_sku_tier_amended [⟨1, "abc".toList, "Pen".toList, []⟩]
    (" ABC ".toList) ⟨1, "abc".toList, "Pen".toList, []⟩ (by decide) (by decide)

/-- C7: every `DetectionGuess` produced by the extractor from any raw
model output has its confidence clamped into [0, 1] and its quantity
floored to at least 1 by the `OllamaDetectionResult` constructor, and
every `DetectionOutcome` assembled for the caller copies those fields and
so satisfies the same bounds. -/
theorem C7_bounds_invariant (loads : PyStr → Except Unit Json) (text : PyStr)
    (db : List InventoryMaster) :
    (∀ g ∈ OllamaService.parse_response loads text,
      0 ≤ g.confidence ∧ g.confidence ≤ 1 ∧ 1 ≤ g.quantity) ∧
    (∀ r ∈ assembleResults db (OllamaService.parse_response loads text),
      0 ≤ r.confidence ∧ r.confidence ≤ 1 ∧ 1 ≤ r.quantity) := by
  constructor
  · exact fun g hg => OllamaService.parse_response_bounds loads text g hg
  · intro r hr
    unfold assembleResults at hr
    exact assembleResults_bounds db (OllamaService.parse_response loads text) []
      (fun g hg => OllamaService.parse_response_bounds loads text g hg)
      (by simp) r hr

/-- C7 witness: a concrete guess and its assembled outcome. -/
theorem C7_witness :
    (⟨"X".toList, mkRat 9 10, 2⟩ : OllamaDetectionResult) ∈
        OllamaService.parse_response
          (fun _ => Except.ok (Json.obj [("products".toList,
            Json.arr [Json.obj [("name".toList, Json.str ("X".toList)),
              ("confidence".toList, Json.num (mkRat 9 10)),
              ("quantity".toList, Json.num 2)]])]))
          ['{', '}'] ∧
      (0 ≤ (mkRat 9 10 : ℚ) ∧ (mkRat 9 10 : ℚ) ≤ 1 ∧ 1 ≤ (2 : ℤ)) ∧
      (⟨1, "X".toList, "s".toList, mkRat 9 10, 2, "X".toList⟩ : DetectionResult) ∈
        assembleResults [⟨1, "s".toList, "X".toList, []⟩]
          (OllamaService.parse_response
            (fun _ => Except.ok (Json.obj [("products".toList,
              Json.arr [Json.obj [("name".toList, Json.str ("X".toList)),
                ("confidence".toList, Json.num (mkRat 9 10)),
                ("quantity".toList, Json.num 2)]])]))
            ['{', '}']) ∧
      (0 ≤ (mkRat 9 10 : ℚ) ∧ (mkRat 9 10 : ℚ) ≤ 1 ∧ 1 ≤ (2 : ℤ)) := by
  refine ⟨by decide, ?_, by decide, ?_⟩
  · exact (C7_bounds_invariant
      (fun _ => Except.ok (Json.obj [("products".toList,
        Json.arr [Json.obj [("name".toList, Json.str ("X".toList)),
          ("confidence".toList, Json.num (mkRat 9 10)),
          ("quantity".toList, Json.num 2)]])]))
      ['{', '}'] []).1 ⟨"X".toList, mkRat 9 10, 2⟩ (by decide)
  · exact (C7_bounds_invariant
      (fun _ => Except.ok (Json.obj [("products".toList,
        Json.arr [Json.obj [("name".toList, Json.str ("X".toList)),
          ("confidence".toList, Json.num (mkRat 9 10)),
          ("quantity".toList, Json.num 2)]])]))
      ['{', '}'] [⟨1, "s".toList, "X".toList, []⟩]).2
      ⟨1, "X".toList, "s".toList, mkRat 9 10, 2, "X".toList⟩ (by decide)

/-- Unfolding of `fuzzyTier` as an `if` over the nested sweep fold. -/
lemma InventoryService.fuzzyTier_def (db : List InventoryMaster) (d : PyStr) :
    InventoryService.fuzzyTier db d =
      if Config.FUZZY_MATCH_THRESHOLD ≤
          (db.foldl
            (fun acc item =>
              item.aliases.foldl (InventoryService.fuzzyStep d item)
                (InventoryService.fuzzyStep d item acc item.name))
            ((none : Option InventoryMaster), (0 : ℚ))).2 then
        (db.foldl
          (fun acc item =>
            item.aliases.foldl (InventoryService.fuzzyStep d item)
              (InventoryService.fuzzyStep d item acc item.name))
          ((none : Option InventoryMaster), (0 : ℚ))).1
      else none := rfl

/-- The best score over the whole sweep, starting from the initial
`best_score = 0.0`. -/
def InventoryService.fuzzyBestScore (db : List InventoryMaster) (d : PyStr) : ℚ :=
  InventoryService.maxOf 0 (InventoryService.fuzzyPairs db d)

/-- C4: the fuzzy tier scores the (already normalized) detected name
against every candidate's name and every alias, tracks the single maximum
(ties keep the first-encountered candidate in sweep order), returns
absence when the maximum is strictly below the 0.6 threshold, and returns
the candidate owning the first maximal score when the maximum is at least
0.6 — including exactly 0.6. -/
theorem C4_fuzzy_tier_characterization (db : List InventoryMaster) (d : PyStr) :
    (InventoryService.fuzzyBestScore db d < Config.FUZZY_MATCH_THRESHOLD →
      InventoryService.fuzzyTier db d = none) ∧
    (Config.FUZZY_MATCH_THRESHOLD ≤ InventoryService.fuzzyBestScore db d →
      InventoryService.fuzzyTier db d =
        ((InventoryService.fuzzyPairs db d).find?
          (fun p => p.1 == InventoryService.fuzzyBestScore db d)).map Prod.snd) := by
  have hfold := InventoryService.fuzzy_fold_flat d db
    ((none : Option InventoryMaster), (0 : ℚ))
  have hsnd := InventoryService.foldl_bestStep_snd
    (InventoryService.fuzzyPairs db d) none 0
  constructor
  · intro hlt
    rw [InventoryService.fuzzyTier_def, hfold]
    rw [if_neg (by rw [hsnd]; exact not_le.mpr hlt)]
  · intro hge
    rw [InventoryService.fuzzyTier_def, hfold]
    rw [if_pos (by rw [hsnd]; exact hge)]
    have hθ : (0 : ℚ) < Config.FUZZY_MATCH_THRESHOLD := by decide
    have hpos : (0 : ℚ) < InventoryService.maxOf 0 (InventoryService.fuzzyPairs db d) :=
      lt_of_lt_of_le hθ hge
    have hex : ∃ p ∈ InventoryService.fuzzyPairs db d, (0 : ℚ) < p.1 := by
      rcases InventoryService.maxOf_attained 0 (InventoryService.fuzzyPairs db d) with h | h
      · rw [h] at hpos
        exact absurd hpos (lt_irrefl _)
      · obtain ⟨p, hp, hpe⟩ := h
        exact ⟨p, hp, by rw [hpe]; exact hpos⟩
    exact InventoryService.foldl_bestStep_argmax hex

/-- C4 witness: a sweep whose best score is exactly the threshold 0.6
returns the owning candidate. -/
theorem C4_witness :
    Config.FUZZY_MATCH_THRESHOLD ≤
        InventoryService.fuzzyBestScore [⟨1, "s1".toList, "abcyzw".toList, []⟩]
          ("abcx".toList) ∧
      InventoryService.fuzzyBestScore [⟨1, "s1".toList, "abcyzw".toList, []⟩]
          ("abcx".toList) = Config.FUZZY_MATCH_THRESHOLD ∧
      InventoryService.fuzzyTier [⟨1, "s1".toList, "abcyzw".toList, []⟩]
          ("abcx".toList) =
        ((InventoryService.fuzzyPairs [⟨1, "s1".toList, "abcyzw".toList, []⟩]
          ("abcx".toList)).find?
            (fun p => p.1 == InventoryService.fuzzyBestScore
              [⟨1, "s1".toList, "abcyzw".toList, []⟩] ("abcx".toList))).map Prod.snd ∧
      InventoryService.fuzzyTier [⟨1, "s1".toList, "abcyzw".toList, []⟩]
          ("abcx".toList) = some ⟨1, "s1".toList, "abcyzw".toList, []⟩ := by
  refine ⟨by decide, by decide, ?_, by decide⟩
  exact (C4_fuzzy_tier_characterization [⟨1, "s1".toList, "abcyzw".toList, []⟩]
    ("abcx".toList)).2 (by decide)

/-- C10: when the detected name is empty after normalization and every
candidate's sku, name and alias entries are non-empty, no tier can fire —
the exact tiers compare the empty string against non-empty ones, and every
fuzzy score is 0, below the threshold — so `match_product` returns no
match. -/
theorem C10_empty_detected_no_match (db : List InventoryMaster) (name : PyStr)
    (hempty : pyStrip (pyLower name) = [])
    (hfields : ∀ item ∈ db,
      item.sku ≠ [] ∧ item.name ≠ [] ∧ ∀ al ∈ item.aliases, al ≠ []) :
    InventoryService.match_product db name = none := by
  have hsku : InventoryService.skuTier db [] = none := by
    unfold InventoryService.skuTier
    rw [List.find?_eq_none]
    intro item hit
    simp only [beq_iff_eq]
    exact (hfields item hit).1
  have hname : InventoryService.nameTier db [] = none := by
    unfold InventoryService.nameTier
    rw [List.find?_eq_none]
    intro item hit
    have he : pgIlike item.name [] = (pyLower item.name).isEmpty := rfl
    rw [he]
    simp only [List.isEmpty_iff]
    unfold pyLower
    simp only [List.map_eq_nil_iff]
    exact (hfields item hit).2.1
  have halias : InventoryService.aliasTier db [] = none := by
    unfold InventoryService.aliasTier
    rw [List.find?_eq_none]
    intro item hit
    simp only [List.any_eq_true, beq_iff_eq, not_exists, not_and]
    intro al hal hcon
    have : al = [] := by
      have h2 : pyLower al = [] := hcon
      unfold pyLower at h2
      simpa using h2
    exact absurd this ((hfields item hit).2.2 al hal)
  have hfuzzy : InventoryService.fuzzyTier db [] = none := by
    rw [InventoryService.fuzzyTier_def, InventoryService.fuzzy_fold_flat]
    have hall : ∀ p ∈ InventoryService.fuzzyPairs db [], p.1 ≤ (0 : ℚ) := by
      intro p hp
      unfold InventoryService.fuzzyPairs at hp
      rw [List.mem_flatten] at hp
      obtain ⟨l, hl, hpl⟩ := hp
      rcases List.mem_map.mp hl with ⟨item, hitem, rfl⟩
      have hscore : ∀ key : PyStr, key ≠ [] →
          Difflib.ratioVal [] (pyLower key) ≤ 0 := by
        intro key hkey
        rw [Difflib.ratioVal_nil_left]
        unfold pyLower
        simp only [List.length_map]
        intro hc
        exact hkey (List.length_eq_zero.mp hc)
      rcases List.mem_cons.mp hpl with h | h
      · rw [h]
        exact hscore item.name (hfields item hitem).2.1
      · rcases List.mem_map.mp h with ⟨al, hal, rfl⟩
        exact hscore al ((hfields item hitem).2.2 al hal)
    rw [InventoryService.foldl_bestStep_stable hall none]
    rw [if_neg (by decide : ¬ Config.FUZZY_MATCH_THRESHOLD ≤
      (((none : Option InventoryMaster), (0 : ℚ))).2)]
  rw [InventoryService.match_product_def, hempty]
  simp only [hsku, hname, halias]
  exact hfuzzy

/-- C10 witness: a whitespace-only detected name against a one-item table
with non-empty fields. -/
theorem C10_witness :
    pyStrip (pyLower ("  ".toList)) = [] ∧
      (∀ item ∈ [(⟨1, "k".toList, "Pen".toList, [("p".toList)]⟩ : InventoryMaster)],
        InventoryMaster.sku item ≠ [] ∧ InventoryMaster.name item ≠ [] ∧
          ∀ al ∈ InventoryMaster.aliases item, al ≠ []) ∧
      InventoryService.match_product
        [(⟨1, "k".toList, "Pen".toList, [("p".toList)]⟩ : InventoryMaster)]
        ("  ".toList) = none := by
  refine ⟨by decide, by decide, ?_⟩
  exact C10_empty_detected_no_match
    [⟨1, "k".toList, "Pen".toList, [("p".toList)]⟩] ("  ".toList)
    (by decide) (by decide)
